import Mathlib

/-!
Shallow embedding of `src/neighbors.cpp` (largeVis approximate k-nearest-neighbour
construction): the recursive random-projection-tree builder `searchTree` and the
orchestrating pipeline `searchTrees` (forest build, pool normalisation, top-K
reduction, neighbourhood-exploration refinement), together with theorems about
the behaviour the specification describes.

Modelling conventions:
* The source computes with IEEE doubles.  Every double is a dyadic rational
  `n / 2 ^ e`, and every scalar operation the embedded code performs (addition,
  subtraction, multiplication, halving) is closed on dyadic rationals, so the
  embedding uses the exact dyadic scalar `Dy` below; comparisons are integer
  cross-multiplications and therefore executable.  (Where the source rounds,
  the embedding is exact; the claims under study are about control flow and
  integer outputs, not rounding.)
* The OpenMP parallel loops (one task per tree, one task per point) are
  sequentialised in program order; tree appends are serialised by a global
  critical section in the source, and the per-point tasks of the matrix phases
  write disjoint columns, so the sequentialisation realises one legal schedule.
* The progress/interrupt collaborator (`progress.hpp`, not part of src/) is
  modelled from the spec: a counter plus an abort flag; `check_abort()` returns
  the flag and `increment` advances the counter and returns "continue" exactly
  when not aborted.  The abort flag is modelled as a constant for the run
  (i.e. set - or not - before invocation).
* Randomness: the tree builder consumes an explicit stream of draw-position
  pairs, one pair per selection attempt.
* `Rcpp::stop` (fatal error) and exhaustion of the random stream are modelled
  by the result type `TRes`.
-/

namespace LV

/-- Dyadic rational scalar, value `num / 2 ^ exp`.  Exactly represents every
IEEE double, and is closed under all arithmetic the embedded code performs. -/
structure Dy where
  num : ℤ
  exp : ℕ
deriving Repr, DecidableEq

def Dy.ofInt (n : ℤ) : Dy := ⟨n, 0⟩

def Dy.add (a b : Dy) : Dy := ⟨a.num * 2 ^ b.exp + b.num * 2 ^ a.exp, a.exp + b.exp⟩

def Dy.sub (a b : Dy) : Dy := ⟨a.num * 2 ^ b.exp - b.num * 2 ^ a.exp, a.exp + b.exp⟩

def Dy.mul (a b : Dy) : Dy := ⟨a.num * b.num, a.exp + b.exp⟩

def Dy.half (a : Dy) : Dy := ⟨a.num, a.exp + 1⟩

/-- Strict order on dyadic values (cross-multiplied, denominators positive). -/
def Dy.dlt (a b : Dy) : Prop := a.num * 2 ^ b.exp < b.num * 2 ^ a.exp

def Dy.dle (a b : Dy) : Prop := a.num * 2 ^ b.exp ≤ b.num * 2 ^ a.exp

/-- Value equality of dyadic scalars (the `d == 0` comparison of the source). -/
def Dy.deq (a b : Dy) : Prop := a.num * 2 ^ b.exp = b.num * 2 ^ a.exp

instance : DecidableRel Dy.dlt := fun a b => Int.decLt (a.num * 2 ^ b.exp) (b.num * 2 ^ a.exp)

instance : DecidableRel Dy.dle := fun a b => Int.decLe (a.num * 2 ^ b.exp) (b.num * 2 ^ a.exp)

instance : DecidableRel Dy.deq := fun a b => Int.decEq (a.num * 2 ^ b.exp) (b.num * 2 ^ a.exp)

/-- The rational value denoted by a dyadic scalar (used in proofs only). -/
def Dy.val (a : Dy) : ℚ := (a.num : ℚ) / 2 ^ a.exp

theorem Dy.two_pow_pos (e : ℕ) : (0 : ℚ) < 2 ^ e := by positivity

theorem Dy.val_ofInt (n : ℤ) : (Dy.ofInt n).val = (n : ℚ) := by
  simp [Dy.ofInt, Dy.val]

theorem Dy.val_add (a b : Dy) : (a.add b).val = a.val + b.val := by
  simp only [Dy.add, Dy.val]
  rw [div_add_div _ _ (ne_of_gt (Dy.two_pow_pos _)) (ne_of_gt (Dy.two_pow_pos _))]
  push_cast
  ring_nf

theorem Dy.val_sub (a b : Dy) : (a.sub b).val = a.val - b.val := by
  simp only [Dy.sub, Dy.val]
  rw [div_sub_div _ _ (ne_of_gt (Dy.two_pow_pos _)) (ne_of_gt (Dy.two_pow_pos _))]
  push_cast
  ring_nf

theorem Dy.val_mul (a b : Dy) : (a.mul b).val = a.val * b.val := by
  simp only [Dy.mul, Dy.val]
  push_cast
  rw [pow_add]
  field_simp

theorem Dy.val_half (a : Dy) : a.half.val = a.val / 2 := by
  simp only [Dy.half, Dy.val, pow_succ]
  rw [div_div]

theorem Dy.dlt_iff_val (a b : Dy) : a.dlt b ↔ a.val < b.val := by
  simp only [Dy.dlt, Dy.val]
  rw [div_lt_div_iff₀ (Dy.two_pow_pos _) (Dy.two_pow_pos _)]
  exact_mod_cast Iff.rfl

theorem Dy.dle_iff_val (a b : Dy) : a.dle b ↔ a.val ≤ b.val := by
  simp only [Dy.dle, Dy.val]
  rw [div_le_div_iff₀ (Dy.two_pow_pos _) (Dy.two_pow_pos _)]
  exact_mod_cast Iff.rfl

theorem Dy.deq_iff_val (a b : Dy) : a.deq b ↔ a.val = b.val := by
  simp only [Dy.deq, Dy.val]
  rw [div_eq_div_iff (ne_of_gt (Dy.two_pow_pos _)) (ne_of_gt (Dy.two_pow_pos _))]
  exact_mod_cast Iff.rfl

/-- Column vectors of the data matrix. -/
abbrev Vec := List Dy

def vsub (x y : Vec) : Vec := List.zipWith Dy.sub x y

def dotDy (x y : Vec) : Dy := (List.zipWith Dy.mul x y).foldl Dy.add (Dy.ofInt 0)

/-- `relDist` (neighbors.cpp lines 30-32): squared Euclidean distance
`sum(square(i - j))`. -/
def relDist (x y : Vec) : Dy :=
  (List.zipWith Dy.sub x y).foldl (fun acc d => acc.add (d.mul d)) (Dy.ofInt 0)

/-- Squared-Euclidean distances are non-negative (as rational values). -/
theorem relDist_val_nonneg (x y : Vec) : 0 ≤ (relDist x y).val := by
  unfold relDist
  have h : ∀ (l : List Dy) (acc : Dy), 0 ≤ acc.val →
      0 ≤ (l.foldl (fun acc d => acc.add (d.mul d)) acc).val := by
    intro l
    induction l with
    | nil => intro acc h; simpa using h
    | cons d t ih =>
      intro acc h
      simp only [List.foldl_cons]
      refine ih _ ?_
      rw [Dy.val_add, Dy.val_mul]
      nlinarith [mul_self_nonneg d.val]
  exact h _ _ (by rw [Dy.val_ofInt]; norm_num)

/-- Result of an embedded computation: normal return, `Rcpp::stop` with a
message, or exhaustion of the supplied random stream (the source would keep
drawing; the embedding's stream is finite). -/
inductive TRes (α : Type) where
  | ok (val : α)
  | fatal (msg : String)
  | outOfRand
deriving Repr, DecidableEq

def TRes.bind {α β : Type} : TRes α → (α → TRes β) → TRes β
  | .ok a, f => f a
  | .fatal m, _ => .fatal m
  | .outOfRand, _ => .outOfRand

@[simp] theorem TRes.bind_ok {α β : Type} (a : α) (f : α → TRes β) :
    TRes.bind (.ok a) f = f a := rfl

@[simp] theorem TRes.bind_fatal {α β : Type} (m : String) (f : α → TRes β) :
    TRes.bind (.fatal m) f = .fatal m := rfl

@[simp] theorem TRes.bind_outOfRand {α β : Type} (f : α → TRes β) :
    TRes.bind .outOfRand f = .outOfRand := rfl

/-- Mutable state threaded through the tree builder: the candidate pools
(`treeNeighborhoods`, one growable vector of candidate indices per point),
the progress counter, and the remaining random stream. -/
structure TState where
  pools : List (List ℕ)
  prog : ℕ
  rand : List (ℕ × ℕ)
deriving Repr, DecidableEq

/-- `heap[k] -> push_back(xs...)`: append to the candidate pool of point `k`. -/
def appendAt (pools : List (List ℕ)) (k : ℕ) (xs : List ℕ) : List (List ℕ) :=
  pools.set k (pools.getD k [] ++ xs)

/-- The `I == 2` base case (lines 44-51): each of the two points records the
other as a candidate. -/
def pairStep (indices : List ℕ) (st : TState) : TState :=
  let a := indices.getD 0 0
  let b := indices.getD 1 0
  { st with pools := appendAt (appendAt st.pools a [b]) b [a] }

/-- The all-pairs co-leaf base case (lines 52-62): for each position `i`, append
every other member of `indices` (in position order) to the pool of
`indices[i]`, then report `|I|` progress units. -/
def leafStep (indices : List ℕ) (st : TState) : TState :=
  { st with
    pools := (List.range indices.length).foldl
      (fun ps p => appendAt ps (indices.getD p 0) (indices.eraseIdx p)) st.pools
    prog := st.prog + indices.length }

/-- One attempt of the random pair selection (lines 68-79), iterated over the
random stream.  The source draws `selections = randu(2) * (I - 1)` and indexes
`indices` with the truncated doubles, giving draw positions in `[0, I-2]`; the
embedding obtains such positions by reducing the supplied pair modulo `I - 1`.
If the two selected point indices coincide, the second is replaced by the entry
one position further (modulo `I`), and if they still coincide the do-while loop
draws afresh. -/
def pickPair (indices : List ℕ) : List (ℕ × ℕ) → Option (ℕ × ℕ × List (ℕ × ℕ))
  | [] => none
  | (a, b) :: rest =>
    let sz := indices.length
    let p2 := b % (sz - 1)
    let x1idx := indices.getD (a % (sz - 1)) 0
    let x2idx0 := indices.getD p2 0
    let x2idx := if x1idx = x2idx0 then indices.getD ((p2 + 1) % sz) 0 else x2idx0
    if x1idx = x2idx then pickPair indices rest else some (x1idx, x2idx, rest)

/-- Projection of column `x` onto the random hyperplane's normal (lines 76-85):
`direction = ⟨X[:,x] - m, X[:,x1] - X[:,x2]⟩` with base point
`m = (X[:,x1] + X[:,x2]) / 2`.  The source additionally divides the normal by
its Euclidean length `‖X[:,x1] - X[:,x2]‖₂` (an irrational square root in
general); that factor is strictly positive whenever the two columns differ, and
both every projection and their median scale by the same positive factor, so
the partition comparisons `direction > middle` / `direction <= middle` are
unchanged by dropping it.  When the two chosen columns are equal the source
divides by zero and all projections are NaN, both `arma::find` calls return
empty sets, and the positional fallback fires; in the embedding the normal is
then the zero vector, all projections are `0`, the left part is empty, and the
same fallback fires. -/
def projVal (data : List Vec) (x1 x2 : ℕ) (x : ℕ) : Dy :=
  let m := List.zipWith (fun a b => Dy.half (a.add b)) (data.getD x1 []) (data.getD x2 [])
  dotDy (vsub (data.getD x []) m) (vsub (data.getD x1 []) (data.getD x2 []))

def dySort (l : List Dy) : List Dy := List.insertionSort Dy.dle l

/-- `arma::median` (line 88): middle element of the sorted values for odd
length, mean of the two middle elements for even length. -/
def medianDy (l : List Dy) : Dy :=
  let s := dySort l
  let n := s.length
  if n % 2 = 1 then s.getD (n / 2) (Dy.ofInt 0)
  else Dy.half ((s.getD (n / 2 - 1) (Dy.ofInt 0)).add (s.getD (n / 2) (Dy.ofInt 0)))

/-- The hyperplane partition (lines 88-91): positions with projection strictly
above the median go left, positions with projection at most the median go
right; `arma::find` returns positions in ascending order, so each part keeps
the original relative order of `indices`. -/
def projParts (data : List Vec) (indices : List ℕ) (x1 x2 : ℕ) : List ℕ × List ℕ :=
  let dirs := indices.map (projVal data x1 x2)
  let middle := medianDy dirs
  let pairs := indices.zip dirs
  ((pairs.filter (fun p => decide (Dy.dlt middle p.2))).map Prod.fst,
   (pairs.filter (fun p => decide (Dy.dle p.2 middle))).map Prod.fst)

/-- The split actually recursed on (lines 92-98): the hyperplane partition if
both parts have at least two members, otherwise the positional bisection
`indices.subvec(0, size/2)` and `indices.subvec(size/2, size-1)` (both
inclusive, hence sharing position `size/2`). -/
def splitParts (data : List Vec) (indices : List ℕ) (x1 x2 : ℕ) : List ℕ × List ℕ :=
  let lr := projParts data indices x1 x2
  if 2 ≤ lr.1.length ∧ 2 ≤ lr.2.length then lr
  else (indices.take (indices.length / 2 + 1), indices.drop (indices.length / 2))

/-- `searchTree` (lines 34-99), the recursive RP-tree builder.  Checked in
order: abort probe; `|I| < 2` fatal; `|I| = 2` pair base case; `|I| < threshold`
or exhausted recursion budget all-pairs leaf; otherwise a random hyperplane
split and recursion on both parts (left first) with budget decremented.  In the
`iterations = 0` arm the leaf condition `I < threshold || iterations == 0`
holds outright. -/
def searchTree (threshold : ℕ) (data : List Vec) (abort : Bool) :
    ℕ → List ℕ → TState → TRes TState
  | 0, indices, st =>
    if abort then .ok st
    else if indices.length < 2 then .fatal "Tree split failure."
    else if indices.length = 2 then .ok (pairStep indices st)
    else .ok (leafStep indices st)
  | iterations + 1, indices, st =>
    if abort then .ok st
    else if indices.length < 2 then .fatal "Tree split failure."
    else if indices.length = 2 then .ok (pairStep indices st)
    else if indices.length < threshold then .ok (leafStep indices st)
    else
      match pickPair indices st.rand with
      | none => .outOfRand
      | some (x1, x2, rest) =>
        let parts := splitParts data indices x1 x2
        TRes.bind (searchTree threshold data abort iterations parts.1 ⟨st.pools, st.prog, rest⟩)
          (fun st1 => searchTree threshold data abort iterations parts.2 st1)

/-- The bounded max-heap `std::priority_queue<heapObject>` (lines 19-28), whose
ordering compares distances.  Modelled as a list sorted by distance in
decreasing order; the head is the top (a maximal element).  For elements with
equal distance the C++ standard leaves the pop order unspecified; the model
places a newly pushed element after existing elements of equal key. -/
abbrev PQ := List (Dy × ℤ)

def pqPush (h : PQ) (x : Dy × ℤ) : PQ :=
  match h with
  | [] => [x]
  | y :: t => if Dy.dlt y.1 x.1 then x :: y :: t else y :: pqPush t x

/-- `top()` of the heap.  On an empty heap the source's behaviour is undefined;
the model returns the sentinel pair so that the guard at line 178 fires. -/
def pqTop (h : PQ) : Dy × ℤ := h.headD (Dy.ofInt 0, -1)

/-- `push` followed by `if (size > cap) pop()`: evicts the current maximum when
over capacity. -/
def pqCap (cap : ℕ) (h : PQ) : PQ := if cap < h.length then h.drop 1 else h

/-- Column-major integer matrix (the k-NN matrix `knns`); entries are point
indices or the sentinel `-1`. -/
structure IMat where
  nrows : ℕ
  cols : List (List ℤ)
deriving Repr, DecidableEq

def IMat.empty : IMat := ⟨0, []⟩

/-- Column access by a (possibly signed) index, total: out-of-range gives `[]`. -/
def IMat.colZ (m : IMat) (j : ℤ) : List ℤ :=
  if 0 ≤ j then m.cols.getD j.toNat [] else []

/-- Pad a drained column with the `-1` fill of the freshly allocated matrix. -/
def padNeg (rows : ℕ) (l : List ℤ) : List ℤ := l ++ List.replicate (rows - l.length) (-1)

theorem padNeg_length (rows : ℕ) (l : List ℤ) (h : l.length ≤ rows) :
    (padNeg rows l).length = rows := by
  simp [padNeg]
  omega

theorem padNeg_mem (rows : ℕ) (l : List ℤ) (e : ℤ) (he : e ∈ padNeg rows l) :
    e ∈ l ∨ e = -1 := by
  rcases List.mem_append.mp he with h | h
  · exact Or.inl h
  · exact Or.inr (List.eq_of_mem_replicate h)

/-- `std::lower_bound` on positions `[first, first+len)` of `v`: the canonical
binary search by repeated halving, as implemented by libstdc++/libc++.  The
source applies it (inside `equal_range`) to a vector that is NOT always sorted
(the pools are only sorted by the normalisation pass), where the C++ standard
gives no guarantee; the embedding reproduces the deterministic halving
behaviour.  Each step shrinks `len`, so `len` itself bounds the iterations. -/
def lbAux (v : List ℤ) (k : ℤ) : ℕ → ℕ → ℕ → ℕ
  | 0, first, _ => first
  | fuel + 1, first, len =>
    if len = 0 then first
    else
      let half := len / 2
      let mid := first + half
      if v.getD mid 0 < k then lbAux v k fuel (mid + 1) (len - half - 1)
      else lbAux v k fuel first half

def lowerBoundFrom (v : List ℤ) (k : ℤ) (first len : ℕ) : ℕ := lbAux v k len first len

/-- `std::upper_bound` by halving, analogous to `lowerBoundFrom`. -/
def ubAux (v : List ℤ) (k : ℤ) : ℕ → ℕ → ℕ → ℕ
  | 0, first, _ => first
  | fuel + 1, first, len =>
    if len = 0 then first
    else
      let half := len / 2
      let mid := first + half
      if k < v.getD mid 0 then ubAux v k fuel first half
      else ubAux v k fuel (mid + 1) (len - half - 1)

def upperBoundFrom (v : List ℤ) (k : ℤ) (first len : ℕ) : ℕ := ubAux v k len first len

/-- `std::equal_range` (lines 213-216) by the canonical combined halving
algorithm of libstdc++/libc++: narrow until an element equal to `k` is found at
`mid`, then take the lower bound in `[first, mid)` and the upper bound in
`[mid+1, first+len)`; return `(first, first)` of the exhausted range
otherwise.  Positions are indices into `v`. -/
def erAux (v : List ℤ) (k : ℤ) : ℕ → ℕ → ℕ → ℕ × ℕ
  | 0, first, _ => (first, first)
  | fuel + 1, first, len =>
    if len = 0 then (first, first)
    else
      let half := len / 2
      let mid := first + half
      if v.getD mid 0 < k then erAux v k fuel (mid + 1) (len - half - 1)
      else if k < v.getD mid 0 then erAux v k fuel first half
      else (lowerBoundFrom v k first half, upperBoundFrom v k (mid + 1) (len - half - 1))

def eqRange (v : List ℤ) (k : ℤ) : ℕ × ℕ := erAux v k v.length 0 v.length

/-- Total read of a vector position: `none` models an out-of-bounds access. -/
def readAt (v : List ℤ) (p : ℕ) : Option ℤ := v.get? p

/-- The top-K reduction for one point (lines 163-178): push every pool member
with its distance into a max-heap bounded by `threshold`, then drain with the
do-while loop into the column (slot 0 receiving the farthest retained
candidate), and fail with "Bad neighbor matrix." if exactly one slot was
written and it still holds the `-1` fill.  The drain reads `top()` once before
testing emptiness; on an empty heap the model's sentinel top makes the guard
fire (the source's behaviour there is undefined). -/
def topKCol (threshold : ℕ) (data : List Vec) (dist : Vec → Vec → Dy)
    (pools : List (List ℕ)) (i : ℕ) : TRes (List ℤ) :=
  let xi := data.getD i []
  let fin : PQ := (pools.getD i []).foldl
    (fun h c => pqCap threshold (pqPush h (dist xi (data.getD c []), (c : ℤ)))) []
  let drained := ((pqTop fin).2 :: (fin.drop 1).map Prod.snd).take threshold
  if drained.length = 1 ∧ drained.headD 0 = -1 then .fatal "Bad neighbor matrix."
  else .ok (padNeg threshold drained)

/-- Sequence the per-point column computations, propagating a fatal stop. -/
def tmapM {α : Type} (f : ℕ → TRes α) : List ℕ → TRes (List α)
  | [] => .ok []
  | x :: xs => (f x).bind fun a => (tmapM f xs).bind fun rest => .ok (a :: rest)

/-- The top-K reduction phase (lines 160-179): an `threshold × N` matrix, one
column per point.  `p.increment()` returns "continue" since the abort flag is
down when this phase runs. -/
def topKPhase (threshold : ℕ) (data : List Vec) (dist : Vec → Vec → Dy)
    (pools : List (List ℕ)) : TRes IMat :=
  (tmapM (topKCol threshold data dist pools) (List.range data.length)).bind fun cs =>
    .ok ⟨threshold, cs⟩

/-- The inner refinement loop over the neighbours of an immediate neighbour
(lines 208-229): stop at the first sentinel; skip `k = i`; test membership of
`k` in `pastVisitors` via `equal_range` and the dereference
`*(firstlast.first)` (modelled by the total `readAt`; the source reads the
one-past-the-end iterator when `k` is greater than every element); insert an
unseen `k` at the upper-bound position (or push it back when that position is
the end); skip zero distances; and insert into the heap under the bounded rule:
push when below capacity, else push-and-evict only when strictly closer than
the current maximum. -/
def innerLoop (K : ℕ) (data : List Vec) (dist : Vec → Vec → Dy) (xi : Vec) (i : ℤ) :
    List ℤ → PQ × List ℤ → PQ × List ℤ
  | [], s => s
  | k :: rest, (heap, pv) =>
    if k = -1 then (heap, pv)
    else if k = i then innerLoop K data dist xi i rest (heap, pv)
    else
      let fl := eqRange pv k
      if readAt pv fl.1 = some k then innerLoop K data dist xi i rest (heap, pv)
      else
        let pv2 := if fl.2 = pv.length then pv ++ [k] else pv.insertIdx fl.2 k
        let d := dist xi (if 0 ≤ k then data.getD k.toNat [] else [])
        if Dy.deq d (Dy.ofInt 0) then innerLoop K data dist xi i rest (heap, pv2)
        else
          let heap2 :=
            if heap.length < K then pqPush heap (d, k)
            else if Dy.dlt d (pqTop heap).1 then pqCap K (pqPush heap (d, k))
            else heap
          innerLoop K data dist xi i rest (heap2, pv2)

/-- The outer refinement loop over the immediate neighbours of `i`
(lines 197-230): stop at the first sentinel; skip `j = i`; skip zero distances;
push `(d, j)` with eviction above capacity; then run the inner loop over
`old_knns.col(j)`. -/
def outerLoop (K : ℕ) (data : List Vec) (dist : Vec → Vec → Dy) (old : IMat)
    (xi : Vec) (i : ℤ) : List ℤ → PQ × List ℤ → PQ × List ℤ
  | [], s => s
  | j :: rest, (heap, pv) =>
    if j = -1 then (heap, pv)
    else if j = i then outerLoop K data dist old xi i rest (heap, pv)
    else
      let d := dist xi (if 0 ≤ j then data.getD j.toNat [] else [])
      if Dy.deq d (Dy.ofInt 0) then outerLoop K data dist old xi i rest (heap, pv)
      else
        let heap1 := pqCap K (pqPush heap (d, j))
        let s2 := innerLoop K data dist xi i (old.colZ j) (heap1, pv)
        outerLoop K data dist old xi i rest s2

/-- One refinement column (lines 187-238): visited set initialised as a copy of
the point's candidate pool, the two nested loops, then the while-loop drain
into the fresh `-1`-filled column; an empty drain is the fatal "Failure in
neighborhood exploration" path. -/
def refineCol (K : ℕ) (data : List Vec) (dist : Vec → Vec → Dy)
    (pools : List (List ℕ)) (old : IMat) (i : ℕ) : TRes (List ℤ) :=
  let xi := data.getD i []
  let pv0 : List ℤ := (pools.getD i []).map Int.ofNat
  let s := outerLoop K data dist old xi (i : ℤ) (old.colZ (i : ℤ)) ([], pv0)
  let drained := (s.1.map Prod.snd).take K
  if drained.length = 0 then
    .fatal "Failure in neighborhood exploration - this should never happen."
  else .ok (padNeg K drained)

/-- One refinement iteration (lines 182-240): a fresh `K × N` matrix computed
column by column from the previous iteration's snapshot. -/
def refineIter (K : ℕ) (data : List Vec) (dist : Vec → Vec → Dy)
    (pools : List (List ℕ)) (old : IMat) : TRes IMat :=
  (tmapM (refineCol K data dist pools old) (List.range data.length)).bind fun cs =>
    .ok ⟨K, cs⟩

/-- The `maxIter` sequential refinement iterations. -/
def refineLoop (K : ℕ) (data : List Vec) (dist : Vec → Vec → Dy)
    (pools : List (List ℕ)) : ℕ → IMat → TRes IMat
  | 0, m => .ok m
  | t + 1, m => (refineIter K data dist pools m).bind (refineLoop K data dist pools t)

/-- Candidate pools at entry of the forest phase: each point is seeded with
itself (lines 122-126). -/
def initPools (N : ℕ) : List (List ℕ) := (List.range N).map (fun i => [i])

def sortNat (l : List ℕ) : List ℕ := List.insertionSort (· ≤ ·) l

/-- `std::unique`: drop consecutive duplicates (only meaningful after sorting).
`std::sort` is modelled by insertion sort; on a list of naturals every
comparison sort produces the same output list. -/
def uniqAdj : List ℕ → List ℕ
  | [] => []
  | [a] => [a]
  | a :: b :: t => if a = b then uniqAdj (b :: t) else a :: uniqAdj (b :: t)

def normalizePool (l : List ℕ) : List ℕ := uniqAdj (sortNat l)

/-- One iteration of the forest-building loop (lines 131-152): skip everything
when aborted; run one tree over all points; for every tree except the first
(and when not aborted) sort and deduplicate every pool in place and fail with
"Tree failure." if any pool has fewer than 3 members.  The source checks each
pool's size as it normalises it and stops at the first violation; the model
normalises all pools and then checks them all, which yields the same result. -/
def forestStep (threshold maxRecursion : ℕ) (data : List Vec) (abort : Bool)
    (r : TRes TState) (t : ℕ) : TRes TState :=
  r.bind fun st =>
    if abort then .ok st
    else
      (searchTree threshold data abort maxRecursion (List.range data.length) st).bind fun st1 =>
        if 0 < t ∧ abort = false then
          if (st1.pools.map normalizePool).all (fun l => 3 ≤ l.length) then
            .ok { st1 with pools := st1.pools.map normalizePool }
          else .fatal "Tree failure."
        else .ok st1

/-- The forest phase: pools seeded, then `n_trees` trees (lines 122-153). -/
def forestPhase (threshold n_trees maxRecursion : ℕ) (data : List Vec) (abort : Bool)
    (rand : List (ℕ × ℕ)) : TRes TState :=
  (List.range n_trees).foldl (forestStep threshold maxRecursion data abort)
    (.ok ⟨initPools data.length, 0, rand⟩)

/-- The distance oracle selection (lines 115-118): squared Euclidean for
"Euclidean" and for any unrecognised name; the cosine distance lives in
`helpers.h`, outside this translation unit, and per the spec is a
caller-supplied capability, so it is a parameter. -/
def distSel (distMethod : String) (cosImpl : Vec → Vec → Dy) : Vec → Vec → Dy :=
  if distMethod = "Euclidean" then relDist
  else if distMethod = "Cosine" then cosImpl
  else relDist

/-- `searchTrees` (lines 104-242), the full pipeline: pools seeded with the
point itself; the forest build with between-tree normalisation; return of the
empty matrix when the abort flag is up (line 155); the top-K reduction into a
`threshold × N` matrix; a second abort probe returning the empty matrix
(line 180); then `maxIter` refinement iterations, each producing a `K × N`
matrix. -/
def searchTrees (threshold n_trees K maxRecursion maxIter : ℕ) (data : List Vec)
    (distMethod : String) (cosImpl : Vec → Vec → Dy) (abort : Bool)
    (rand : List (ℕ × ℕ)) : TRes IMat :=
  let dist := distSel distMethod cosImpl
  (forestPhase threshold n_trees maxRecursion data abort rand).bind fun st =>
    if abort then .ok IMat.empty
    else
      (topKPhase threshold data dist st.pools).bind fun knns =>
        if abort then .ok IMat.empty
        else refineLoop K data dist st.pools maxIter knns

/-! ### Concrete instances used by counterexamples and witnesses -/

/-- Three collinear points 0, 1, 5 on the line (1 × 3 data matrix).  With
`leaf_threshold = 4` the single tree is one all-pairs leaf. -/
def data3 : List Vec := [[Dy.ofInt 0], [Dy.ofInt 1], [Dy.ofInt 5]]

/-- A stand-in for the caller-supplied cosine implementation (constant 1). -/
def oneDist : Vec → Vec → Dy := fun _ _ => Dy.ofInt 1

/-- `searchTrees` on `data3` with `threshold = 4`, one tree, `K = 2`, recursion
budget 4 and zero refinement iterations. -/
def runA : TRes IMat := searchTrees 4 1 2 4 0 data3 "Euclidean" oneDist false []

def matA : IMat := ⟨4, [[2, 1, 0, -1], [2, 0, 1, -1], [0, 1, 2, -1]]⟩

/-- The same input with one refinement iteration. -/
def runB : TRes IMat := searchTrees 4 1 2 4 1 data3 "Euclidean" oneDist false []

def matB : IMat := ⟨2, [[2, 1], [0, 0], [0, 1]]⟩

/-- Four identical points: every hyperplane projection is degenerate. -/
def dataEq : List Vec := [[Dy.ofInt 0], [Dy.ofInt 0], [Dy.ofInt 0], [Dy.ofInt 0]]

/-- Four separated points 0, 1, 10, 11 on the line. -/
def data4 : List Vec := [[Dy.ofInt 0], [Dy.ofInt 1], [Dy.ofInt 10], [Dy.ofInt 11]]

/-! ### C1 -/

/-- C1 counterexample: with the valid input `leaf_threshold = 4`, `n_trees = 1`,
`K = 2`, `max_recursion_depth = 4`, `max_refine_iters = 0` on the 1 × 3 matrix
`data3`, `searchTrees` returns without abort and without fatal error, yet the
returned matrix has 4 (= leaf_threshold) rows, not `K = 2`: with zero
refinement iterations the matrix allocated at line 160 with `threshold` rows is
returned unchanged in shape. -/
theorem C1_cex : runA = TRes.ok matA ∧ matA.nrows ≠ 2 := by
  constructor
  · decide
  · decide

/-! ### C2 -/

/-- C2 counterexample: on the same valid input as `C1_cex`
(`max_refine_iters = 0`), column 0 of the returned non-empty matrix contains
the entry 0 — the point's own index — because the pool of point `i` is seeded
with `i` itself and the top-K reduction (lines 163-177) pushes every pool
member, including `i` at distance 0, without the self-check that only the
refinement loops perform. -/
theorem C2_cex : runA = TRes.ok matA ∧ (0 : ℤ) ∈ matA.cols.getD 0 [] := by
  constructor
  · decide
  · decide

/-! ### C3 -/

/-- C3 failing-input evaluation: with the valid input `leaf_threshold = 4`,
`n_trees = 1`, `K = 2`, `max_recursion_depth = 4`, `max_refine_iters = 1` on
`data3`, the returned column of point 1 is `[0, 0]`: the non-sentinel entry 0
appears twice.  With a single tree the pool-normalisation pass of lines 141-151
never runs (`t > 0` fails), so point 1's pool stays `[1, 0, 2]` — unsorted —
and the binary-search membership test of lines 213-217 fails to find the
already-pushed candidate 0, which is then pushed a second time at line 224. -/
theorem C3_dup_eval : runB = TRes.ok matB ∧ matB.cols.getD 1 [] = [0, 0] := by
  constructor
  · decide
  · decide

/-! ### C4 -/

/-- C4 counterexample: with `n_trees = 1` (a valid input: the claim quantifies
over any `n_trees ≥ 1`), the forest phase completes with point 1's pool equal
to `[1, 0, 2]`, which is not sorted ascending: the sort-and-deduplicate pass of
lines 141-151 is guarded by `t > 0` and therefore never runs when there is only
one tree. -/
theorem C4_cex :
    forestPhase 4 1 4 data3 false [] = TRes.ok ⟨[[0, 1, 2], [1, 0, 2], [2, 0, 1]], 3, []⟩
      ∧ ¬ List.Sorted (· ≤ ·) ([1, 0, 2] : List ℕ) := by
  constructor
  · decide
  · decide

/-! ### C9 -/

/-- C9 counterexample: on four identical points the hyperplane split is
degenerate (the strictly-above-median part is empty), and the positional
bisection hands `searchTree`'s two recursive calls the index sequences
`indices.subvec(0, 2) = [0, 1, 2]` and `indices.subvec(2, 3) = [2, 3]`
(lines 96-97) — both inclusive of position `⌊|I|/2⌋ = 2`, so the children share
the element 2 and are NOT disjoint. -/
theorem C9_cex :
    (projParts dataEq [0, 1, 2, 3] 0 2).1.length < 2
      ∧ splitParts dataEq [0, 1, 2, 3] 0 2 = ([0, 1, 2], [2, 3])
      ∧ ¬ List.Disjoint ([0, 1, 2] : List ℕ) [2, 3] := by
  refine ⟨by decide, by decide, fun h => ?_⟩
  exact h (show (2 : ℕ) ∈ [0, 1, 2] by decide) (by decide)

/-! ### C10 -/

/-- C10 failing-input evaluation: during refinement of point 0 on the
two-trees-on-the-unit-square input (pools normalised to `[0, 1, 2]` for point
0), the neighbour-of-neighbour candidate `k = 3` exceeds every element of
`pastVisitors = [0, 1, 2]`; `equal_range` then returns the pair
`(end, end) = (3, 3)`, and the found-test `*(firstlast.first) == k` of line 217
dereferences position 3 of a vector of size 3 — one past the end.  In the total
embedding that read is `none`. -/
theorem C10_oob_eval :
    eqRange [0, 1, 2] 3 = (3, 3)
      ∧ readAt [0, 1, 2] (eqRange [0, 1, 2] 3).1 = none
      ∧ ([0, 1, 2] : List ℤ).length = 3 := by
  refine ⟨by decide, by decide, by decide⟩

/-! ### C5 -/

theorem forestStep_abort (threshold maxRecursion : ℕ) (data : List Vec) (t : ℕ) (st : TState) :
    forestStep threshold maxRecursion data true (.ok st) t = .ok st := by
  simp [forestStep, TRes.bind]

theorem foldl_forestStep_abort (threshold maxRecursion : ℕ) (data : List Vec)
    (l : List ℕ) (st : TState) :
    l.foldl (forestStep threshold maxRecursion data true) (.ok st) = .ok st := by
  induction l with
  | nil => rfl
  | cons t ts ih => rw [List.foldl_cons, forestStep_abort]; exact ih

/-- C5: if the abort flag is set before invocation, `searchTrees` returns the
empty matrix for every input: the forest loop skips every tree (line 132) and
the probe at line 155 returns `arma::mat(0)`; no partial neighbour matrix is
surfaced. -/
theorem C5_abort_empty (threshold n_trees K maxRecursion maxIter : ℕ) (data : List Vec)
    (distMethod : String) (cosImpl : Vec → Vec → Dy) (rand : List (ℕ × ℕ)) :
    searchTrees threshold n_trees K maxRecursion maxIter data distMethod cosImpl true rand
      = TRes.ok IMat.empty := by
  unfold searchTrees forestPhase
  rw [foldl_forestStep_abort]
  simp [TRes.bind]

/-! ### C7: pool-update bookkeeping -/

theorem appendAt_length (ps : List (List ℕ)) (k : ℕ) (xs : List ℕ) :
    (appendAt ps k xs).length = ps.length := List.length_set ps k _

theorem getD_appendAt_self (ps : List (List ℕ)) (k : ℕ) (xs : List ℕ) (hk : k < ps.length) :
    (appendAt ps k xs).getD k [] = ps.getD k [] ++ xs := by
  unfold appendAt
  rw [List.getD_eq_getElem?_getD, List.getElem?_set_self hk]
  rfl

theorem getD_appendAt_ne (ps : List (List ℕ)) (k : ℕ) (xs : List ℕ) (j : ℕ) (h : k ≠ j) :
    (appendAt ps k xs).getD j [] = ps.getD j [] := by
  unfold appendAt
  rw [List.getD_eq_getElem?_getD, List.getElem?_set_ne h, List.getD_eq_getElem?_getD]

theorem getD_mem_of_lt {α : Type} (l : List α) (p : ℕ) (d : α) (h : p < l.length) :
    l.getD p d ∈ l := by
  rw [List.getD_eq_getElem?_getD, List.getElem?_eq_getElem h]
  exact List.getElem_mem h

theorem getD_nodup_ne (l : List ℕ) (hnd : l.Nodup) (p q : ℕ)
    (hp : p < l.length) (hq : q < l.length) (hne : p ≠ q) :
    l.getD p 0 ≠ l.getD q 0 := by
  rw [List.getD_eq_getElem?_getD, List.getElem?_eq_getElem hp,
    List.getD_eq_getElem?_getD, List.getElem?_eq_getElem hq]
  intro h
  exact hne (Fin.mk.injEq .. ▸ (hnd.get_inj_iff.mp h))

/-- Effect of the all-pairs fold of `leafStep` on the pool of the point at a
position in `posl` (generalising over the list of positions still to be
processed). -/
theorem foldAppend_getD (indices : List ℕ) (hnd : indices.Nodup) :
    ∀ (posl : List ℕ) (ps : List (List ℕ)),
      (∀ x ∈ indices, x < ps.length) → (∀ q ∈ posl, q < indices.length) → posl.Nodup →
      ∀ p, p < indices.length →
        (posl.foldl (fun ps q => appendAt ps (indices.getD q 0) (indices.eraseIdx q)) ps).getD
            (indices.getD p 0) []
          = if p ∈ posl then ps.getD (indices.getD p 0) [] ++ indices.eraseIdx p
            else ps.getD (indices.getD p 0) []
  | [], ps, _, _, _, p, _ => by simp
  | q :: rest, ps, hlen, hql, hplnd, p, hp => by
    rw [List.foldl_cons]
    have hq : q < indices.length := hql q (List.mem_cons_self q rest)
    have hlen1 : ∀ x ∈ indices, x < (appendAt ps (indices.getD q 0) (indices.eraseIdx q)).length := by
      intro x hx; rw [appendAt_length]; exact hlen x hx
    rw [foldAppend_getD indices hnd rest _ hlen1
      (fun r hr => hql r (List.mem_cons_of_mem q hr)) hplnd.of_cons p hp]
    by_cases hpq : p = q
    · subst hpq
      have hnotin : p ∉ rest := (List.nodup_cons.mp hplnd).1
      simp only [hnotin, if_false, List.mem_cons, true_or, if_true]
      exact getD_appendAt_self ps _ _ (hlen _ (getD_mem_of_lt indices p 0 hp))
    · have hkey : indices.getD q 0 ≠ indices.getD p 0 :=
        getD_nodup_ne indices hnd q p hq hp (fun h => hpq h.symm)
      rw [getD_appendAt_ne _ _ _ _ hkey]
      simp only [List.mem_cons, hpq, false_or]

/-- The all-pairs fold leaves pools of points outside `indices` untouched. -/
theorem foldAppend_getD_not_mem (indices : List ℕ) (n : ℕ) (hn : n ∉ indices) :
    ∀ (posl : List ℕ) (ps : List (List ℕ)), (∀ q ∈ posl, q < indices.length) →
      (posl.foldl (fun ps q => appendAt ps (indices.getD q 0) (indices.eraseIdx q)) ps).getD n []
        = ps.getD n []
  | [], ps, _ => rfl
  | q :: rest, ps, hql => by
    rw [List.foldl_cons, foldAppend_getD_not_mem indices n hn rest _
      (fun r hr => hql r (List.mem_cons_of_mem q hr))]
    have hq : q < indices.length := hql q (List.mem_cons_self q rest)
    exact getD_appendAt_ne _ _ _ _ (fun h => hn (h ▸ getD_mem_of_lt indices q 0 hq))

/-- C7: the base cases of `searchTree` (lines 42-62), checked in this order
after the abort probe.  (1) if the abort flag is up the call returns with the
state untouched; (2) fewer than two points is the fatal "Tree split failure.";
(3) exactly two points make each record the other as a candidate; (4) a node
below the leaf threshold, or with exhausted recursion budget, appends to each
member's pool all other members (in position order) and reports `|I|` progress
units. -/
theorem C7_base_cases (threshold iterations : ℕ) (data : List Vec)
    (indices : List ℕ) (st : TState) :
    (searchTree threshold data true iterations indices st = .ok st)
    ∧ (indices.length < 2 →
        searchTree threshold data false iterations indices st = .fatal "Tree split failure.")
    ∧ (indices.length = 2 →
        searchTree threshold data false iterations indices st = .ok (pairStep indices st)
        ∧ (indices.Nodup → (∀ x ∈ indices, x < st.pools.length) →
            (pairStep indices st).pools.getD (indices.getD 0 0) []
                = st.pools.getD (indices.getD 0 0) [] ++ [indices.getD 1 0]
            ∧ (pairStep indices st).pools.getD (indices.getD 1 0) []
                = st.pools.getD (indices.getD 1 0) [] ++ [indices.getD 0 0]))
    ∧ (2 < indices.length → (indices.length < threshold ∨ iterations = 0) →
        searchTree threshold data false iterations indices st = .ok (leafStep indices st)
        ∧ (leafStep indices st).prog = st.prog + indices.length
        ∧ (indices.Nodup → (∀ x ∈ indices, x < st.pools.length) →
            ∀ p, p < indices.length →
              (leafStep indices st).pools.getD (indices.getD p 0) []
                = st.pools.getD (indices.getD p 0) [] ++ indices.eraseIdx p)) := by
  refine ⟨?_, ?_, ?_, ?_⟩
  · cases iterations <;> simp [searchTree]
  · intro h
    cases iterations <;> simp [searchTree, h]
  · intro h
    have h2 : ¬ indices.length < 2 := by omega
    constructor
    · cases iterations <;> simp [searchTree, h, h2]
    · intro hnd hlen
      have h0 : (0 : ℕ) < indices.length := by omega
      have h1 : (1 : ℕ) < indices.length := by omega
      have hne : indices.getD 0 0 ≠ indices.getD 1 0 :=
        getD_nodup_ne indices hnd 0 1 h0 h1 (by omega)
      have ha : indices.getD 0 0 < st.pools.length := hlen _ (getD_mem_of_lt indices 0 0 h0)
      have hb : indices.getD 1 0 < st.pools.length := hlen _ (getD_mem_of_lt indices 1 0 h1)
      constructor
      · show (appendAt (appendAt st.pools (indices.getD 0 0) [indices.getD 1 0])
            (indices.getD 1 0) [indices.getD 0 0]).getD (indices.getD 0 0) [] = _
        rw [getD_appendAt_ne _ _ _ _ (fun h' => hne h'.symm),
          getD_appendAt_self _ _ _ ha]
      · show (appendAt (appendAt st.pools (indices.getD 0 0) [indices.getD 1 0])
            (indices.getD 1 0) [indices.getD 0 0]).getD (indices.getD 1 0) [] = _
        rw [getD_appendAt_self _ _ _ (by rw [appendAt_length]; exact hb),
          getD_appendAt_ne _ _ _ _ hne]
  · intro h hleaf
    have h2 : ¬ indices.length < 2 := by omega
    have hne2 : ¬ indices.length = 2 := by omega
    refine ⟨?_, rfl, ?_⟩
    · rcases hleaf with hsmall | hzero
      · cases iterations <;> simp [searchTree, h2, hne2, hsmall]
      · subst hzero; simp [searchTree, h2, hne2]
    · intro hnd hlen p hp
      show ((List.range indices.length).foldl
          (fun ps q => appendAt ps (indices.getD q 0) (indices.eraseIdx q)) st.pools).getD
          (indices.getD p 0) [] = _
      rw [foldAppend_getD indices hnd (List.range indices.length) st.pools hlen
        (fun q hq => List.mem_range.mp hq) (List.nodup_range _) p hp]
      simp [List.mem_range, hp]

/-- Witness for `C7_base_cases`: each base case exercised on a concrete call on
`data3` with the state of freshly seeded pools. -/
theorem C7_base_cases_witness :
    (searchTree 4 data3 true 4 [0, 1, 2] ⟨initPools 3, 0, []⟩ = .ok ⟨initPools 3, 0, []⟩)
    ∧ (searchTree 4 data3 false 4 [0] ⟨initPools 3, 0, []⟩ = .fatal "Tree split failure.")
    ∧ (searchTree 4 data3 false 4 [0, 2] ⟨initPools 3, 0, []⟩
        = .ok (pairStep [0, 2] ⟨initPools 3, 0, []⟩)
      ∧ (pairStep [0, 2] ⟨initPools 3, 0, []⟩).pools.getD 0 [] = [0] ++ [2]
      ∧ (pairStep [0, 2] ⟨initPools 3, 0, []⟩).pools.getD 2 [] = [2] ++ [0])
    ∧ (searchTree 4 data3 false 4 [0, 1, 2] ⟨initPools 3, 0, []⟩
        = .ok (leafStep [0, 1, 2] ⟨initPools 3, 0, []⟩)
      ∧ (leafStep [0, 1, 2] ⟨initPools 3, 0, []⟩).prog = 0 + 3
      ∧ (leafStep [0, 1, 2] ⟨initPools 3, 0, []⟩).pools.getD 1 []
          = [1] ++ [0, 2]) := by
  have h01 := (C7_base_cases 4 4 data3 [0] ⟨initPools 3, 0, []⟩).2.1 (by decide)
  have h2 := (C7_base_cases 4 4 data3 [0, 2] ⟨initPools 3, 0, []⟩).2.2.1 rfl
  have h2p := h2.2 (by decide) (by decide)
  have h3 := (C7_base_cases 4 4 data3 [0, 1, 2] ⟨initPools 3, 0, []⟩).2.2.2
    (by decide) (Or.inl (by decide))
  have h3p := h3.2.2 (by decide) (by decide) 1 (by decide)
  refine ⟨(C7_base_cases 4 4 data3 [0, 1, 2] ⟨initPools 3, 0, []⟩).1, h01,
    ⟨h2.1, ?_, ?_⟩, ⟨h3.1, h3.2.1, ?_⟩⟩
  · have := h2p.1
    simpa using this
  · have := h2p.2
    simpa using this
  · simpa using h3p

/-! ### C8: the non-degenerate hyperplane split -/

theorem zip_map_filter_fst {β : Type} (f : ℕ → β) (pred : β → Bool) :
    ∀ l : List ℕ, ((l.zip (l.map f)).filter (fun p => pred p.2)).map Prod.fst
      = l.filter (fun x => pred (f x))
  | [] => rfl
  | x :: t => by
    simp only [List.map_cons, List.zip_cons_cons, List.filter_cons]
    by_cases h : pred (f x) <;>
      simp [h, zip_map_filter_fst f pred t]

/-- The median of the projection values of a node (`middle`, line 88). -/
def medianOf (data : List Vec) (indices : List ℕ) (x1 x2 : ℕ) : Dy :=
  medianDy (indices.map (projVal data x1 x2))

/-- The members of `indices` whose projection is strictly above the median. -/
def leftOf (data : List Vec) (indices : List ℕ) (x1 x2 : ℕ) : List ℕ :=
  indices.filter (fun x => decide (Dy.dlt (medianOf data indices x1 x2) (projVal data x1 x2 x)))

/-- The members of `indices` whose projection is at most the median. -/
def rightOf (data : List Vec) (indices : List ℕ) (x1 x2 : ℕ) : List ℕ :=
  indices.filter (fun x => decide (Dy.dle (projVal data x1 x2 x) (medianOf data indices x1 x2)))

theorem projParts_eq_filters (data : List Vec) (indices : List ℕ) (x1 x2 : ℕ) :
    projParts data indices x1 x2 = (leftOf data indices x1 x2, rightOf data indices x1 x2) := by
  unfold projParts leftOf rightOf medianOf
  rw [Prod.mk.injEq]
  constructor
  · exact zip_map_filter_fst (projVal data x1 x2)
      (fun v => decide (Dy.dlt (medianDy (List.map (projVal data x1 x2) indices)) v)) indices
  · exact zip_map_filter_fst (projVal data x1 x2)
      (fun v => decide (Dy.dle v (medianDy (List.map (projVal data x1 x2) indices)))) indices

/-- C8: in a non-degenerate recursive step (both parts of size at least 2),
`searchTree` recurses exactly on the members of `indices` whose projection
exceeds the median `τ` (left, first) and on those whose projection is at most
`τ` (right, second); in particular every point whose projection ties the median
goes right and not left. -/
theorem C8_split (threshold iterations : ℕ) (data : List Vec) (indices : List ℕ)
    (st : TState) (x1 x2 : ℕ) (rest : List (ℕ × ℕ))
    (hpick : pickPair indices st.rand = some (x1, x2, rest))
    (hlen2 : 2 < indices.length) (hth : threshold ≤ indices.length)
    (hL : 2 ≤ (leftOf data indices x1 x2).length)
    (hR : 2 ≤ (rightOf data indices x1 x2).length) :
    splitParts data indices x1 x2 = (leftOf data indices x1 x2, rightOf data indices x1 x2)
    ∧ searchTree threshold data false (iterations + 1) indices st
        = TRes.bind (searchTree threshold data false iterations (leftOf data indices x1 x2)
              ⟨st.pools, st.prog, rest⟩)
            (fun st1 => searchTree threshold data false iterations (rightOf data indices x1 x2) st1)
    ∧ (∀ x ∈ indices,
        (x ∈ leftOf data indices x1 x2 ↔ Dy.dlt (medianOf data indices x1 x2) (projVal data x1 x2 x))
        ∧ (x ∈ rightOf data indices x1 x2 ↔ Dy.dle (projVal data x1 x2 x) (medianOf data indices x1 x2)))
    ∧ (∀ x ∈ indices, Dy.deq (projVal data x1 x2 x) (medianOf data indices x1 x2) →
        x ∈ rightOf data indices x1 x2 ∧ x ∉ leftOf data indices x1 x2) := by
  have hsplit : splitParts data indices x1 x2
      = (leftOf data indices x1 x2, rightOf data indices x1 x2) := by
    unfold splitParts
    rw [projParts_eq_filters]
    simp [hL, hR]
  have hmem : ∀ x ∈ indices,
      (x ∈ leftOf data indices x1 x2 ↔ Dy.dlt (medianOf data indices x1 x2) (projVal data x1 x2 x))
      ∧ (x ∈ rightOf data indices x1 x2 ↔ Dy.dle (projVal data x1 x2 x) (medianOf data indices x1 x2)) := by
    intro x hx
    constructor
    · unfold leftOf
      rw [List.mem_filter]
      simp [hx]
    · unfold rightOf
      rw [List.mem_filter]
      simp [hx]
  refine ⟨hsplit, ?_, hmem, ?_⟩
  · have h2 : ¬ indices.length < 2 := by omega
    have hne2 : ¬ indices.length = 2 := by omega
    have hth' : ¬ indices.length < threshold := by omega
    simp only [searchTree, Bool.false_eq_true, if_false, h2, hne2, hth', hpick, hsplit]
  · intro x hx heq
    have hv := (Dy.deq_iff_val _ _).mp heq
    constructor
    · exact ((hmem x hx).2).mpr ((Dy.dle_iff_val _ _).mpr (le_of_eq hv))
    · intro hmemL
      have := (Dy.dlt_iff_val _ _).mp (((hmem x hx).1).mp hmemL)
      rw [hv] at this
      exact lt_irrefl _ this

/-- Witness for `C8_split`: on the four separated points of `data4` the random
pair `(0, 2)` induces the hyperplane through 5 with left part `[0, 1]` and
right part `[2, 3]`. -/
theorem C8_split_witness :
    splitParts data4 [0, 1, 2, 3] 0 2 = (leftOf data4 [0, 1, 2, 3] 0 2, rightOf data4 [0, 1, 2, 3] 0 2)
    ∧ leftOf data4 [0, 1, 2, 3] 0 2 = [0, 1]
    ∧ rightOf data4 [0, 1, 2, 3] 0 2 = [2, 3]
    ∧ searchTree 3 data4 false 1 [0, 1, 2, 3] ⟨initPools 4, 0, [(0, 2)]⟩
        = TRes.bind (searchTree 3 data4 false 0 (leftOf data4 [0, 1, 2, 3] 0 2)
              ⟨initPools 4, 0, []⟩)
            (fun st1 => searchTree 3 data4 false 0 (rightOf data4 [0, 1, 2, 3] 0 2) st1) := by
  have h := C8_split 3 0 data4 [0, 1, 2, 3] ⟨initPools 4, 0, [(0, 2)]⟩ 0 2 []
    (by decide) (by decide) (by decide) (by decide) (by decide)
  exact ⟨h.1, by decide, by decide, h.2.1⟩

/-! ### C9 (amended): the degenerate positional fallback -/

/-- C9 amended: in a degenerate step the projection split is discarded and
`indices` is bisected positionally at `m = ⌊|I|/2⌋`; the two child sequences
are `indices.take (m+1)` and `indices.drop m`, they together cover exactly the
elements of `indices`, and (for duplicate-free `indices`) they overlap in
exactly the pivot element at position `m` — so they are NOT disjoint, sharing
that one element. -/
theorem C9_fallback (data : List Vec) (indices : List ℕ) (x1 x2 : ℕ)
    (hdeg : ¬ (2 ≤ (projParts data indices x1 x2).1.length
      ∧ 2 ≤ (projParts data indices x1 x2).2.length))
    (hnd : indices.Nodup) (hlen : 1 ≤ indices.length) :
    splitParts data indices x1 x2
      = (indices.take (indices.length / 2 + 1), indices.drop (indices.length / 2))
    ∧ (∀ x, x ∈ indices ↔
        x ∈ indices.take (indices.length / 2 + 1) ∨ x ∈ indices.drop (indices.length / 2))
    ∧ indices.getD (indices.length / 2) 0 ∈ indices.take (indices.length / 2 + 1)
    ∧ indices.getD (indices.length / 2) 0 ∈ indices.drop (indices.length / 2)
    ∧ (∀ x, x ∈ indices.take (indices.length / 2 + 1) →
        x ∈ indices.drop (indices.length / 2) → x = indices.getD (indices.length / 2) 0) := by
  have hm : indices.length / 2 < indices.length := Nat.div_lt_self (by omega) (by omega)
  have hgetD : indices.getD (indices.length / 2) 0 = indices[indices.length / 2] := by
    rw [List.getD_eq_getElem?_getD, List.getElem?_eq_getElem hm]
    rfl
  have hdropcons : indices.drop (indices.length / 2)
      = indices[indices.length / 2] :: indices.drop (indices.length / 2 + 1) :=
    List.drop_eq_getElem_cons hm
  have htakesucc : indices.take (indices.length / 2 + 1)
      = indices.take (indices.length / 2) ++ [indices[indices.length / 2]] := by
    rw [List.take_succ, List.getElem?_eq_getElem hm]
    rfl
  have hcover : indices.take (indices.length / 2 + 1) ++ indices.drop (indices.length / 2 + 1)
      = indices := List.take_append_drop _ _
  have hnd' : (indices.take (indices.length / 2 + 1)
      ++ indices.drop (indices.length / 2 + 1)).Nodup := by
    rw [hcover]
    exact hnd
  have hdisj := (List.nodup_append.mp hnd').2.2
  refine ⟨?_, ?_, ?_, ?_, ?_⟩
  · unfold splitParts
    rw [(Prod.mk.eta (p := projParts data indices x1 x2)).symm] at hdeg
    simp only [if_neg hdeg]
  · intro x
    constructor
    · intro hx
      rcases List.mem_append.mp (hcover ▸ hx) with h | h
      · exact Or.inl h
      · exact Or.inr (hdropcons ▸ List.mem_cons_of_mem _ h)
    · intro hx
      rcases hx with h | h
      · exact (List.take_subset _ _) h
      · exact (List.drop_subset _ _) h
  · rw [hgetD, htakesucc]
    exact List.mem_append_right _ (List.mem_singleton.mpr rfl)
  · rw [hgetD, hdropcons]
    exact List.mem_cons_self _ _
  · intro x hx1 hx2
    rw [hdropcons] at hx2
    rcases List.mem_cons.mp hx2 with h | h
    · rw [hgetD]
      exact h
    · exact absurd h (hdisj hx1)

/-- Witness for `C9_fallback`: on the four identical points the split chosen by
pair `(0, 2)` is degenerate, and the children are `[0, 1, 2]` and `[2, 3]`,
overlapping exactly in the pivot 2. -/
theorem C9_fallback_witness :
    splitParts dataEq [0, 1, 2, 3] 0 2 = ([0, 1, 2], [2, 3])
    ∧ ((2 : ℕ) ∈ ([0, 1, 2] : List ℕ) ∧ (2 : ℕ) ∈ ([2, 3] : List ℕ))
    ∧ (∀ x, x ∈ ([0, 1, 2] : List ℕ) → x ∈ ([2, 3] : List ℕ) → x = 2) := by
  have h := C9_fallback dataEq [0, 1, 2, 3] 0 2 (by decide) (by decide) (by decide)
  refine ⟨?_, ⟨by decide, by decide⟩, ?_⟩
  · rw [h.1]
    decide
  · intro x hx1 hx2
    have := h.2.2.2.2 x (by simpa using hx1) (by simpa using hx2)
    simpa using this

/-! ### C4: pool normalisation -/

theorem mem_uniqAdj : ∀ (l : List ℕ) (x : ℕ), x ∈ uniqAdj l ↔ x ∈ l
  | [], _ => Iff.rfl
  | [_], _ => Iff.rfl
  | a :: b :: t, x => by
    by_cases h : a = b
    · simp only [uniqAdj, if_pos h]
      rw [mem_uniqAdj (b :: t) x]
      subst h
      simp [List.mem_cons]
    · simp only [uniqAdj, if_neg h, List.mem_cons]
      rw [mem_uniqAdj (b :: t) x]
      simp [List.mem_cons]

theorem uniqAdj_sorted : ∀ (l : List ℕ), l.Sorted (· ≤ ·) → (uniqAdj l).Sorted (· < ·)
  | [], _ => by simp [uniqAdj]
  | [_], _ => by simp [uniqAdj]
  | a :: b :: t, h => by
    have hab : a ≤ b := (List.sorted_cons.mp h).1 b (List.mem_cons_self b t)
    have ht : (b :: t).Sorted (· ≤ ·) := (List.sorted_cons.mp h).2
    by_cases hEq : a = b
    · simp only [uniqAdj, if_pos hEq]
      exact uniqAdj_sorted (b :: t) ht
    · simp only [uniqAdj, if_neg hEq]
      rw [List.sorted_cons]
      refine ⟨?_, uniqAdj_sorted (b :: t) ht⟩
      intro c hc
      have hbc : b ≤ c := by
        rcases List.mem_cons.mp ((mem_uniqAdj _ _).mp hc) with h' | h'
        · exact h' ▸ le_refl b
        · exact (List.sorted_cons.mp ht).1 c h'
      exact lt_of_lt_of_le (lt_of_le_of_ne hab hEq) hbc

theorem mem_normalizePool (l : List ℕ) (x : ℕ) : x ∈ normalizePool l ↔ x ∈ l := by
  unfold normalizePool sortNat
  rw [mem_uniqAdj]
  exact (List.perm_insertionSort _ l).mem_iff

theorem normalizePool_sorted (l : List ℕ) : (normalizePool l).Sorted (· < ·) :=
  uniqAdj_sorted _ (List.sorted_insertionSort _ l)

theorem getD_map_normalize (ps : List (List ℕ)) (i : ℕ) (hi : i < ps.length) :
    (ps.map normalizePool).getD i [] = normalizePool (ps.getD i []) := by
  rw [List.getD_eq_getElem?_getD, List.getElem?_map, List.getElem?_eq_getElem hi,
    List.getD_eq_getElem?_getD, List.getElem?_eq_getElem hi]
  rfl

theorem appendAt_getD_sublist (ps : List (List ℕ)) (k : ℕ) (xs : List ℕ) (n : ℕ) :
    List.Sublist (ps.getD n []) ((appendAt ps k xs).getD n []) := by
  by_cases hk : k < ps.length
  · by_cases hkn : k = n
    · subst hkn
      rw [getD_appendAt_self _ _ _ hk]
      exact List.sublist_append_left _ _
    · rw [getD_appendAt_ne _ _ _ _ hkn]
  · unfold appendAt
    rw [List.set_eq_of_length_le (by omega)]

theorem foldl_appendAt_length (key : ℕ → ℕ) (g : ℕ → List ℕ) :
    ∀ (posl : List ℕ) (ps : List (List ℕ)),
      (posl.foldl (fun ps q => appendAt ps (key q) (g q)) ps).length = ps.length
  | [], _ => rfl
  | q :: rest, ps => by
    rw [List.foldl_cons, foldl_appendAt_length key g rest]
    exact appendAt_length _ _ _

theorem foldl_appendAt_sublist (key : ℕ → ℕ) (g : ℕ → List ℕ) :
    ∀ (posl : List ℕ) (ps : List (List ℕ)) (n : ℕ),
      List.Sublist (ps.getD n []) ((posl.foldl (fun ps q => appendAt ps (key q) (g q)) ps).getD n [])
  | [], _, _ => List.Sublist.refl _
  | q :: rest, ps, n => by
    rw [List.foldl_cons]
    exact (appendAt_getD_sublist ps (key q) (g q) n).trans
      (foldl_appendAt_sublist key g rest _ n)

/-- `searchTree` only ever appends to the candidate pools: on normal return the
pool store has the same width and each point's old pool is a sublist (in fact a
preamble) of its new pool. -/
theorem searchTree_ok_pools (threshold : ℕ) (data : List Vec) (abort : Bool) :
    ∀ (it : ℕ) (indices : List ℕ) (st st' : TState),
      searchTree threshold data abort it indices st = .ok st' →
      st'.pools.length = st.pools.length ∧ ∀ n, List.Sublist (st.pools.getD n []) (st'.pools.getD n []) := by
  have hpair : ∀ (indices : List ℕ) (st : TState),
      (pairStep indices st).pools.length = st.pools.length
      ∧ ∀ n, List.Sublist (st.pools.getD n []) ((pairStep indices st).pools.getD n []) := by
    intro indices st
    constructor
    · show (appendAt (appendAt st.pools _ _) _ _).length = _
      rw [appendAt_length, appendAt_length]
    · intro n
      exact (appendAt_getD_sublist _ _ _ n).trans (appendAt_getD_sublist _ _ _ n)
  have hleaf : ∀ (indices : List ℕ) (st : TState),
      (leafStep indices st).pools.length = st.pools.length
      ∧ ∀ n, List.Sublist (st.pools.getD n []) ((leafStep indices st).pools.getD n []) := by
    intro indices st
    exact ⟨foldl_appendAt_length (fun p => indices.getD p 0) (fun p => indices.eraseIdx p) _ _,
      fun n => foldl_appendAt_sublist (fun p => indices.getD p 0) (fun p => indices.eraseIdx p)
        _ _ n⟩
  intro it
  induction it with
  | zero =>
    intro indices st st' h
    simp only [searchTree] at h
    split_ifs at h with h1 h2 h3
    · cases h
      exact ⟨rfl, fun n => List.Sublist.refl _⟩
    · cases h
      exact hpair indices st
    · cases h
      exact hleaf indices st
  | succ it ih =>
    intro indices st st' h
    simp only [searchTree] at h
    split_ifs at h with h1 h2 h3 h4
    · cases h
      exact ⟨rfl, fun n => List.Sublist.refl _⟩
    · cases h
      exact hpair indices st
    · cases h
      exact hleaf indices st
    · cases hp : pickPair indices st.rand with
      | none => rw [hp] at h; cases h
      | some triple =>
        obtain ⟨x1, x2, rest⟩ := triple
        rw [hp] at h
        dsimp only at h
        cases hfirst : searchTree threshold data abort it
            (splitParts data indices x1 x2).1 ⟨st.pools, st.prog, rest⟩ with
        | ok st1 =>
          rw [hfirst] at h
          simp only [TRes.bind_ok] at h
          have r1 := ih _ _ _ hfirst
          have r2 := ih _ _ _ h
          exact ⟨r2.1.trans r1.1, fun n => (r1.2 n).trans (r2.2 n)⟩
        | fatal m => rw [hfirst] at h; cases h
        | outOfRand => rw [hfirst] at h; cases h

/-- Every point is a member of its own candidate pool (established by the
seeding of lines 122-126 and preserved by the whole forest phase, since trees
only append and normalisation preserves membership). -/
def SeedInv (pools : List (List ℕ)) : Prop := ∀ i, i < pools.length → i ∈ pools.getD i []

theorem foldl_forestStep_fatal (threshold maxRecursion : ℕ) (data : List Vec) (abort : Bool) :
    ∀ (l : List ℕ) (m : String),
      l.foldl (forestStep threshold maxRecursion data abort) (.fatal m) = .fatal m
  | [], _ => rfl
  | _ :: rest, m => by
    rw [List.foldl_cons]
    exact foldl_forestStep_fatal threshold maxRecursion data abort rest m

theorem foldl_forestStep_outOfRand (threshold maxRecursion : ℕ) (data : List Vec) (abort : Bool) :
    ∀ (l : List ℕ),
      l.foldl (forestStep threshold maxRecursion data abort) .outOfRand = .outOfRand
  | [] => rfl
  | _ :: rest => by
    rw [List.foldl_cons]
    exact foldl_forestStep_outOfRand threshold maxRecursion data abort rest

theorem forestStep_ok_inv (threshold maxRecursion : ℕ) (data : List Vec) (abort : Bool)
    (t : ℕ) (st st' : TState)
    (h : forestStep threshold maxRecursion data abort (.ok st) t = .ok st') :
    st'.pools.length = st.pools.length ∧ (SeedInv st.pools → SeedInv st'.pools) := by
  unfold forestStep at h
  rw [TRes.bind_ok] at h
  by_cases hab : abort = true
  · rw [if_pos hab] at h
    cases h
    exact ⟨rfl, id⟩
  · rw [if_neg hab] at h
    cases hs : searchTree threshold data abort maxRecursion (List.range data.length) st with
    | ok st1 =>
      rw [hs, TRes.bind_ok] at h
      have r1 := searchTree_ok_pools threshold data abort maxRecursion _ _ _ hs
      by_cases hcond : 0 < t ∧ abort = false
      · rw [if_pos hcond] at h
        by_cases hall : ((st1.pools.map normalizePool).all (fun l => 3 ≤ l.length)) = true
        · rw [if_pos hall] at h
          cases h
          simp only [List.length_map]
          refine ⟨r1.1, fun hseed i hi => ?_⟩
          rw [List.length_map] at hi
          rw [getD_map_normalize _ _ hi, mem_normalizePool]
          exact ((r1.2 i).subset) (hseed i (by omega))
        · rw [if_neg hall] at h
          cases h
      · rw [if_neg hcond] at h
        cases h
        refine ⟨r1.1, fun hseed i hi => ?_⟩
        exact ((r1.2 i).subset) (hseed i (by omega))
    | fatal m => rw [hs] at h; cases h
    | outOfRand => rw [hs] at h; cases h

theorem foldl_forestStep_ok_inv (threshold maxRecursion : ℕ) (data : List Vec) (abort : Bool) :
    ∀ (l : List ℕ) (st st' : TState),
      l.foldl (forestStep threshold maxRecursion data abort) (.ok st) = .ok st' →
      st'.pools.length = st.pools.length ∧ (SeedInv st.pools → SeedInv st'.pools)
  | [], st, st', h => by
    cases h
    exact ⟨rfl, id⟩
  | t :: rest, st, st', h => by
    rw [List.foldl_cons] at h
    cases hstep : forestStep threshold maxRecursion data abort (.ok st) t with
    | ok st1 =>
      rw [hstep] at h
      have r1 := forestStep_ok_inv threshold maxRecursion data abort t st st1 hstep
      have r2 := foldl_forestStep_ok_inv threshold maxRecursion data abort rest st1 st' h
      exact ⟨r2.1.trans r1.1, fun hs => r2.2 (r1.2 hs)⟩
    | fatal m =>
      rw [hstep, foldl_forestStep_fatal] at h
      cases h
    | outOfRand =>
      rw [hstep, foldl_forestStep_outOfRand] at h
      cases h

theorem initPools_length (N : ℕ) : (initPools N).length = N := by
  simp [initPools]

theorem initPools_getD (N i : ℕ) (hi : i < N) : (initPools N).getD i [] = [i] := by
  unfold initPools
  rw [List.getD_eq_getElem?_getD, List.getElem?_map, List.getElem?_range hi]
  rfl

theorem initPools_seedInv (N : ℕ) : SeedInv (initPools N) := by
  intro i hi
  rw [initPools_length] at hi
  rw [initPools_getD N i hi]
  exact List.mem_singleton.mpr rfl

/-- C4 amended: when at least two trees are built (`n_trees ≥ 2`) and the
forest phase completes normally without abort, every candidate pool is sorted
strictly ascending (hence sorted ascending with no duplicate indices), contains
its own point, and has at least 3 members — because the last tree's
normalisation pass (guarded by `t > 0`, lines 141-151) sorted and deduplicated
every pool and enforced the size check, failing with "Tree failure."
otherwise.  For `n_trees = 1` the pass never runs and the pools are in general
unsorted (see the counterexample). -/
theorem C4_amended (threshold n_trees maxRecursion : ℕ) (data : List Vec)
    (rand : List (ℕ × ℕ)) (st' : TState) (hn : 2 ≤ n_trees)
    (h : forestPhase threshold n_trees maxRecursion data false rand = .ok st') :
    st'.pools.length = data.length
    ∧ (∀ i, i < st'.pools.length →
        List.Sorted (· < ·) (st'.pools.getD i [])
        ∧ List.Sorted (· ≤ ·) (st'.pools.getD i [])
        ∧ (st'.pools.getD i []).Nodup
        ∧ i ∈ st'.pools.getD i []
        ∧ 3 ≤ (st'.pools.getD i []).length) := by
  obtain ⟨m, rfl⟩ : ∃ m, n_trees = m + 1 := ⟨n_trees - 1, by omega⟩
  unfold forestPhase at h
  rw [List.range_succ, List.foldl_append, List.foldl_cons, List.foldl_nil] at h
  cases hmid : (List.range m).foldl (forestStep threshold maxRecursion data false)
      (.ok ⟨initPools data.length, 0, rand⟩) with
  | fatal msg =>
    rw [hmid] at h
    unfold forestStep at h
    rw [TRes.bind_fatal] at h
    cases h
  | outOfRand =>
    rw [hmid] at h
    unfold forestStep at h
    rw [TRes.bind_outOfRand] at h
    cases h
  | ok stmid =>
    rw [hmid] at h
    have rmid := foldl_forestStep_ok_inv threshold maxRecursion data false _ _ _ hmid
    have hmidlen : stmid.pools.length = data.length := by
      rw [rmid.1, initPools_length]
    have hmidseed : SeedInv stmid.pools := rmid.2 (initPools_seedInv _)
    unfold forestStep at h
    rw [TRes.bind_ok] at h
    rw [if_neg (by simp : ¬ (false : Bool) = true)] at h
    cases hs : searchTree threshold data false maxRecursion (List.range data.length) stmid with
    | fatal msg => rw [hs] at h; cases h
    | outOfRand => rw [hs] at h; cases h
    | ok st1 =>
        rw [hs, TRes.bind_ok] at h
        have r1 := searchTree_ok_pools threshold data false maxRecursion _ _ _ hs
        have hseed1 : SeedInv st1.pools := by
          intro i hi
          exact ((r1.2 i).subset) (hmidseed i (by omega))
        have hcond : 0 < m ∧ (false : Bool) = false := ⟨by omega, rfl⟩
        rw [if_pos hcond] at h
        by_cases hall : ((st1.pools.map normalizePool).all (fun l => 3 ≤ l.length)) = true
        · rw [if_pos hall] at h
          cases h
          have hlen1 : st1.pools.length = data.length := r1.1.trans hmidlen
          simp only [List.length_map]
          refine ⟨hlen1, fun i hi => ?_⟩
          have hget := getD_map_normalize st1.pools i hi
          rw [hget]
          have hsortedlt := normalizePool_sorted (st1.pools.getD i [])
          have hsize : 3 ≤ (normalizePool (st1.pools.getD i [])).length := by
            have hmem : normalizePool (st1.pools.getD i [])
                ∈ st1.pools.map normalizePool := by
              rw [← hget]
              exact getD_mem_of_lt _ i [] (by rw [List.length_map]; exact hi)
            have := List.all_eq_true.mp hall _ hmem
            exact of_decide_eq_true this
          refine ⟨hsortedlt, hsortedlt.le_of_lt, hsortedlt.nodup, ?_, hsize⟩
          rw [mem_normalizePool]
          exact hseed1 i (by omega)
        · rw [if_neg hall] at h
          cases h

/-- Witness for `C4_amended`: two trees on `data3` leave every pool normalised
to `[0, 1, 2]`. -/
theorem C4_amended_witness :
    forestPhase 4 2 4 data3 false [] = .ok ⟨[[0, 1, 2], [0, 1, 2], [0, 1, 2]], 6, []⟩
    ∧ List.Sorted (· < ·) (([[0, 1, 2], [0, 1, 2], [0, 1, 2]] : List (List ℕ)).getD 1 [])
    ∧ (1 : ℕ) ∈ ([[0, 1, 2], [0, 1, 2], [0, 1, 2]] : List (List ℕ)).getD 1 []
    ∧ 3 ≤ (([[0, 1, 2], [0, 1, 2], [0, 1, 2]] : List (List ℕ)).getD 1 []).length := by
  have hrun : forestPhase 4 2 4 data3 false []
      = .ok ⟨[[0, 1, 2], [0, 1, 2], [0, 1, 2]], 6, []⟩ := by decide
  have h := C4_amended 4 2 4 data3 [] ⟨[[0, 1, 2], [0, 1, 2], [0, 1, 2]], 6, []⟩
    (by omega) hrun
  have h1 := h.2 1 (by decide)
  exact ⟨hrun, h1.1, h1.2.2.2.1, h1.2.2.2.2⟩

/-! ### Heap, top-K and pool-range bookkeeping (towards C1, C2, C6) -/

theorem pqPush_pred (P : Dy × ℤ → Prop) :
    ∀ (h : PQ) (x : Dy × ℤ), (∀ p ∈ h, P p) → P x → ∀ p ∈ pqPush h x, P p
  | [], x, _, hx => by
    intro p hp
    rcases List.mem_singleton.mp hp with rfl
    exact hx
  | y :: t, x, hh, hx => by
    intro p hp
    unfold pqPush at hp
    split_ifs at hp
    · rcases List.mem_cons.mp hp with rfl | hp'
      · exact hx
      · exact hh p hp'
    · rcases List.mem_cons.mp hp with rfl | hp'
      · exact hh _ (List.mem_cons_self _ _)
      · exact pqPush_pred P t x (fun q hq => hh q (List.mem_cons_of_mem y hq)) hx p hp'

theorem pqCap_subset (cap : ℕ) (h : PQ) : ∀ p ∈ pqCap cap h, p ∈ h := by
  intro p hp
  unfold pqCap at hp
  split_ifs at hp
  · exact (List.drop_subset 1 h) hp
  · exact hp

theorem pqCap_pred (P : Dy × ℤ → Prop) (cap : ℕ) (h : PQ) (hh : ∀ p ∈ h, P p) :
    ∀ p ∈ pqCap cap h, P p :=
  fun p hp => hh p (pqCap_subset cap h p hp)

theorem foldl_pq_pred {α : Type} (P : Dy × ℤ → Prop) (cap : ℕ) (f : α → Dy × ℤ) :
    ∀ (l : List α), (∀ c ∈ l, P (f c)) →
      ∀ acc : PQ, (∀ p ∈ acc, P p) →
        ∀ p ∈ l.foldl (fun h c => pqCap cap (pqPush h (f c))) acc, P p
  | [], _, acc, hacc => hacc
  | c :: rest, hl, acc, hacc => by
    rw [List.foldl_cons]
    exact foldl_pq_pred P cap f rest (fun x hx => hl x (List.mem_cons_of_mem c hx)) _
      (pqCap_pred P cap _ (pqPush_pred P acc (f c) hacc (hl c (List.mem_cons_self c rest))))

theorem topKCol_ok_entries (threshold : ℕ) (data : List Vec) (dist : Vec → Vec → Dy)
    (pools : List (List ℕ)) (i : ℕ) (col : List ℤ)
    (h : topKCol threshold data dist pools i = .ok col)
    (hpool : ∀ x ∈ pools.getD i [], x < data.length) :
    col.length = threshold ∧ ∀ e ∈ col, e = -1 ∨ (0 ≤ e ∧ e < (data.length : ℤ)) := by
  unfold topKCol at h
  have hfin : ∀ p ∈ (pools.getD i []).foldl
      (fun h c => pqCap threshold (pqPush h (dist (data.getD i []) (data.getD c []), (c : ℤ)))) [],
      0 ≤ p.2 ∧ p.2 < (data.length : ℤ) := by
    refine foldl_pq_pred (fun p => 0 ≤ p.2 ∧ p.2 < (data.length : ℤ)) threshold _ _ ?_ [] ?_
    · intro c hc
      have hcl := hpool c hc
      exact ⟨Int.ofNat_nonneg c, show (c : ℤ) < (data.length : ℤ) by exact_mod_cast hcl⟩
    · intro p hp
      cases hp
  dsimp only at h
  set fin : PQ := (pools.getD i []).foldl
    (fun h c => pqCap threshold (pqPush h (dist (data.getD i []) (data.getD c []), (c : ℤ)))) []
    with hfin_def
  split_ifs at h with hguard
  cases h
  have hdrained : ∀ e ∈ ((pqTop fin).2 :: (fin.drop 1).map Prod.snd).take threshold,
      e = -1 ∨ (0 ≤ e ∧ e < (data.length : ℤ)) := by
    intro e he
    have he' := List.mem_of_mem_take he
    rcases List.mem_cons.mp he' with rfl | he2
    · cases hfe : fin with
      | nil => left; rfl
      | cons q t =>
        right
        exact hfin q (by rw [hfe]; exact List.mem_cons_self q t)
    · rcases List.mem_map.mp he2 with ⟨p, hp, rfl⟩
      exact Or.inr (hfin p ((List.drop_subset 1 fin) hp))
  constructor
  · exact padNeg_length _ _ (List.length_take_le _ _)
  · intro e he
    rcases padNeg_mem _ _ e he with h' | h'
    · exact hdrained e h'
    · exact Or.inl h'

theorem tmapM_ok {α : Type} (f : ℕ → TRes α) :
    ∀ (xs : List ℕ) (l : List α), tmapM f xs = .ok l →
      l.length = xs.length
      ∧ ∀ (d : α) (p : ℕ), p < xs.length → f (xs.getD p 0) = .ok (l.getD p d)
  | [], l, h => by
    cases h
    exact ⟨rfl, fun d p hp => absurd hp (by simp)⟩
  | x :: rest, l, h => by
    unfold tmapM at h
    cases hx : f x with
    | ok a =>
      rw [hx, TRes.bind_ok] at h
      cases hrest : tmapM f rest with
      | ok lr =>
        rw [hrest, TRes.bind_ok] at h
        cases h
        have ih := tmapM_ok f rest lr hrest
        constructor
        · simp [ih.1]
        · intro d p hp
          cases p with
          | zero => exact hx
          | succ q =>
            have hq : q < rest.length := by
              simp only [List.length_cons] at hp
              omega
            exact ih.2 d q hq
      | fatal m => rw [hrest] at h; cases h
      | outOfRand => rw [hrest] at h; cases h
    | fatal m => rw [hx] at h; cases h
    | outOfRand => rw [hx] at h; cases h

theorem topKPhase_ok (threshold : ℕ) (data : List Vec) (dist : Vec → Vec → Dy)
    (pools : List (List ℕ)) (m : IMat)
    (h : topKPhase threshold data dist pools = .ok m)
    (hpool : ∀ i, i < data.length → ∀ x ∈ pools.getD i [], x < data.length) :
    m.nrows = threshold ∧ m.cols.length = data.length
    ∧ (∀ c ∈ m.cols, c.length = threshold)
    ∧ (∀ i, i < data.length →
        ∀ e ∈ m.cols.getD i [], e = -1 ∨ (0 ≤ e ∧ e < (data.length : ℤ))) := by
  unfold topKPhase at h
  cases hm : tmapM (topKCol threshold data dist pools) (List.range data.length) with
  | ok cs =>
    rw [hm, TRes.bind_ok] at h
    cases h
    have r := tmapM_ok _ _ _ hm
    have hlen : cs.length = data.length := by
      rw [r.1, List.length_range]
    refine ⟨rfl, hlen, ?_, ?_⟩
    · intro c hc
      rcases List.mem_iff_getElem.mp hc with ⟨p, hp, rfl⟩
      have hp2 : p < cs.length := hp
      have hp' : p < data.length := by omega
      have := r.2 [] p (by rw [List.length_range]; exact hp')
      rw [List.getD_eq_getElem?_getD (List.range data.length),
        List.getElem?_range hp'] at this
      have hcol := topKCol_ok_entries threshold data dist pools p _ this (hpool p hp')
      rw [List.getD_eq_getElem?_getD, List.getElem?_eq_getElem hp] at hcol
      exact hcol.1
    · intro i hi e he
      have := r.2 [] i (by rw [List.length_range]; exact hi)
      rw [List.getD_eq_getElem?_getD (List.range data.length),
        List.getElem?_range hi] at this
      have hcol := topKCol_ok_entries threshold data dist pools i _ this (hpool i hi)
      exact hcol.2 e he
  | fatal msg => rw [hm] at h; cases h
  | outOfRand => rw [hm] at h; cases h

/-- All candidate-pool entries are valid point indices. -/
def PoolBound (N : ℕ) (pools : List (List ℕ)) : Prop := ∀ l ∈ pools, ∀ x ∈ l, x < N

theorem appendAt_bound (N : ℕ) (ps : List (List ℕ)) (k : ℕ) (xs : List ℕ)
    (hps : PoolBound N ps) (hxs : ∀ x ∈ xs, x < N) : PoolBound N (appendAt ps k xs) := by
  intro l hl
  rcases List.mem_or_eq_of_mem_set hl with hl' | rfl
  · exact hps l hl'
  · intro x hx
    rcases List.mem_append.mp hx with h1 | h2
    · by_cases hk : k < ps.length
      · exact hps _ (getD_mem_of_lt ps k [] hk) x h1
      · rw [List.getD_eq_getElem?_getD, List.getElem?_eq_none_iff.mpr (by omega)] at h1
        cases h1
    · exact hxs x h2

theorem foldl_appendAt_bound (N : ℕ) (key : ℕ → ℕ) (g : ℕ → List ℕ)
    (hg : ∀ q, ∀ x ∈ g q, x < N) :
    ∀ (posl : List ℕ) (ps : List (List ℕ)), PoolBound N ps →
      PoolBound N (posl.foldl (fun ps q => appendAt ps (key q) (g q)) ps)
  | [], _, hps => hps
  | q :: rest, ps, hps => by
    rw [List.foldl_cons]
    exact foldl_appendAt_bound N key g hg rest _ (appendAt_bound N ps (key q) (g q) hps (hg q))

theorem splitParts_subset (data : List Vec) (indices : List ℕ) (x1 x2 : ℕ) :
    (∀ x ∈ (splitParts data indices x1 x2).1, x ∈ indices)
    ∧ (∀ x ∈ (splitParts data indices x1 x2).2, x ∈ indices) := by
  unfold splitParts
  rw [projParts_eq_filters]
  dsimp only
  split_ifs
  · exact ⟨fun x hx => List.filter_subset' _ hx, fun x hx => List.filter_subset' _ hx⟩
  · exact ⟨fun x hx => List.take_subset _ _ hx, fun x hx => List.drop_subset _ _ hx⟩

/-- `searchTree` only appends point indices drawn from its `indices` argument,
so pool entries stay valid point indices. -/
theorem searchTree_pools_bound (threshold : ℕ) (data : List Vec) (abort : Bool) (N : ℕ) :
    ∀ (it : ℕ) (indices : List ℕ) (st st' : TState),
      (∀ x ∈ indices, x < N) → PoolBound N st.pools →
      searchTree threshold data abort it indices st = .ok st' → PoolBound N st'.pools := by
  have hpair : ∀ (indices : List ℕ) (st : TState), indices.length = 2 →
      (∀ x ∈ indices, x < N) → PoolBound N st.pools → PoolBound N (pairStep indices st).pools := by
    intro indices st hlen hind hb
    refine appendAt_bound N _ _ _ (appendAt_bound N _ _ _ hb ?_) ?_
    · intro x hx
      rcases List.mem_singleton.mp hx with rfl
      exact hind _ (getD_mem_of_lt indices 1 0 (by omega))
    · intro x hx
      rcases List.mem_singleton.mp hx with rfl
      exact hind _ (getD_mem_of_lt indices 0 0 (by omega))
  have hleaf : ∀ (indices : List ℕ) (st : TState),
      (∀ x ∈ indices, x < N) → PoolBound N st.pools → PoolBound N (leafStep indices st).pools := by
    intro indices st hind hb
    exact foldl_appendAt_bound N (fun p => indices.getD p 0) (fun p => indices.eraseIdx p)
      (fun q x hx => hind x (List.eraseIdx_subset indices q hx)) _ _ hb
  intro it
  induction it with
  | zero =>
    intro indices st st' hind hb h
    simp only [searchTree] at h
    split_ifs at h with h1 h2 h3
    · cases h
      exact hb
    · cases h
      exact hpair indices st h3 hind hb
    · cases h
      exact hleaf indices st hind hb
  | succ it ih =>
    intro indices st st' hind hb h
    simp only [searchTree] at h
    split_ifs at h with h1 h2 h3 h4
    · cases h
      exact hb
    · cases h
      exact hpair indices st h3 hind hb
    · cases h
      exact hleaf indices st hind hb
    · cases hp : pickPair indices st.rand with
      | none => rw [hp] at h; cases h
      | some triple =>
        obtain ⟨x1, x2, rest⟩ := triple
        rw [hp] at h
        dsimp only at h
        cases hfirst : searchTree threshold data abort it
            (splitParts data indices x1 x2).1 ⟨st.pools, st.prog, rest⟩ with
        | ok st1 =>
          rw [hfirst] at h
          simp only [TRes.bind_ok] at h
          have hb1 := ih (splitParts data indices x1 x2).1 ⟨st.pools, st.prog, rest⟩ st1
            (fun x hx => hind x ((splitParts_subset data indices x1 x2).1 x hx)) hb hfirst
          exact ih _ _ _ (fun x hx => hind x ((splitParts_subset data indices x1 x2).2 x hx))
            hb1 h
        | fatal m => rw [hfirst] at h; cases h
        | outOfRand => rw [hfirst] at h; cases h

theorem normalize_bound (N : ℕ) (ps : List (List ℕ)) (hb : PoolBound N ps) :
    PoolBound N (ps.map normalizePool) := by
  intro l hl
  rcases List.mem_map.mp hl with ⟨l0, hl0, rfl⟩
  intro x hx
  exact hb l0 hl0 x ((mem_normalizePool l0 x).mp hx)

theorem forestStep_bound (threshold maxRecursion : ℕ) (data : List Vec) (abort : Bool)
    (t : ℕ) (st st' : TState)
    (h : forestStep threshold maxRecursion data abort (.ok st) t = .ok st')
    (hb : PoolBound data.length st.pools) : PoolBound data.length st'.pools := by
  unfold forestStep at h
  rw [TRes.bind_ok] at h
  by_cases hab : abort = true
  · rw [if_pos hab] at h
    cases h
    exact hb
  · rw [if_neg hab] at h
    cases hs : searchTree threshold data abort maxRecursion (List.range data.length) st with
    | ok st1 =>
      rw [hs, TRes.bind_ok] at h
      have hb1 := searchTree_pools_bound threshold data abort data.length maxRecursion _ _ _
        (fun x hx => List.mem_range.mp hx) hb hs
      by_cases hcond : 0 < t ∧ abort = false
      · rw [if_pos hcond] at h
        by_cases hall : ((st1.pools.map normalizePool).all (fun l => 3 ≤ l.length)) = true
        · rw [if_pos hall] at h
          cases h
          exact normalize_bound data.length st1.pools hb1
        · rw [if_neg hall] at h
          cases h
      · rw [if_neg hcond] at h
        cases h
        exact hb1
    | fatal m => rw [hs] at h; cases h
    | outOfRand => rw [hs] at h; cases h

theorem foldl_forestStep_bound (threshold maxRecursion : ℕ) (data : List Vec) (abort : Bool) :
    ∀ (l : List ℕ) (st st' : TState),
      l.foldl (forestStep threshold maxRecursion data abort) (.ok st) = .ok st' →
      PoolBound data.length st.pools → PoolBound data.length st'.pools
  | [], st, st', h, hb => by
    cases h
    exact hb
  | t :: rest, st, st', h, hb => by
    rw [List.foldl_cons] at h
    cases hstep : forestStep threshold maxRecursion data abort (.ok st) t with
    | ok st1 =>
      rw [hstep] at h
      exact foldl_forestStep_bound threshold maxRecursion data abort rest st1 st' h
        (forestStep_bound threshold maxRecursion data abort t st st1 hstep hb)
    | fatal m =>
      rw [hstep, foldl_forestStep_fatal] at h
      cases h
    | outOfRand =>
      rw [hstep, foldl_forestStep_outOfRand] at h
      cases h

theorem initPools_bound (N : ℕ) : PoolBound N (initPools N) := by
  intro l hl
  rcases List.mem_map.mp hl with ⟨i, hi, rfl⟩
  intro x hx
  rcases List.mem_singleton.mp hx with rfl
  exact List.mem_range.mp hi

theorem forestPhase_bound (threshold n_trees maxRecursion : ℕ) (data : List Vec)
    (abort : Bool) (rand : List (ℕ × ℕ)) (st' : TState)
    (h : forestPhase threshold n_trees maxRecursion data abort rand = .ok st') :
    PoolBound data.length st'.pools := by
  unfold forestPhase at h
  exact foldl_forestStep_bound threshold maxRecursion data abort _ _ _ h
    (initPools_bound data.length)

/-- Invariant of every entry `(d, n)` held by the refinement heap of point `i`:
`n` is a valid point index, different from `i`, whose distance to `i`'s column
is nonzero (the `d == 0` guards of lines 202 and 223 filtered it). -/
def EntryOK (data : List Vec) (dist : Vec → Vec → Dy) (xi : Vec) (i : ℤ) (p : Dy × ℤ) : Prop :=
  0 ≤ p.2 ∧ p.2 < (data.length : ℤ) ∧ p.2 ≠ i
  ∧ ¬ Dy.deq (dist xi (data.getD p.2.toNat [])) (Dy.ofInt 0)

theorem innerLoop_inv (K : ℕ) (data : List Vec) (dist : Vec → Vec → Dy) (xi : Vec) (i : ℤ) :
    ∀ (loc : List ℤ) (heap : PQ) (pv : List ℤ),
      (∀ e ∈ loc, e = -1 ∨ (0 ≤ e ∧ e < (data.length : ℤ))) →
      (∀ p ∈ heap, EntryOK data dist xi i p) →
      ∀ p ∈ (innerLoop K data dist xi i loc (heap, pv)).1, EntryOK data dist xi i p
  | [], heap, pv, _, hheap => hheap
  | k :: rest, heap, pv, hloc, hheap => by
    have hrest : ∀ e ∈ rest, e = -1 ∨ (0 ≤ e ∧ e < (data.length : ℤ)) :=
      fun e he => hloc e (List.mem_cons_of_mem k he)
    simp only [innerLoop]
    by_cases h1 : k = -1
    · rw [if_pos h1]
      exact hheap
    · rw [if_neg h1]
      by_cases h2 : k = i
      · rw [if_pos h2]
        exact innerLoop_inv K data dist xi i rest heap pv hrest hheap
      · rw [if_neg h2]
        by_cases h3 : readAt pv (eqRange pv k).1 = some k
        · rw [if_pos h3]
          exact innerLoop_inv K data dist xi i rest heap pv hrest hheap
        · rw [if_neg h3]
          have hk0 : 0 ≤ k ∧ k < (data.length : ℤ) := by
            rcases hloc k (List.mem_cons_self k rest) with h | h
            · exact absurd h h1
            · exact h
          by_cases h4 : Dy.deq (dist xi (if 0 ≤ k then data.getD k.toNat [] else []))
            (Dy.ofInt 0)
          · rw [if_pos h4]
            exact innerLoop_inv K data dist xi i rest heap _ hrest hheap
          · rw [if_neg h4]
            have hentry : EntryOK data dist xi i
                (dist xi (if 0 ≤ k then data.getD k.toNat [] else []), k) := by
              refine ⟨hk0.1, hk0.2, h2, ?_⟩
              rw [if_pos hk0.1] at h4
              exact h4
            by_cases h5 : heap.length < K
            · rw [if_pos h5]
              exact innerLoop_inv K data dist xi i rest _ _ hrest
                (pqPush_pred _ heap _ hheap hentry)
            · rw [if_neg h5]
              by_cases h6 : Dy.dlt (dist xi (if 0 ≤ k then data.getD k.toNat [] else []))
                (pqTop heap).1
              · rw [if_pos h6]
                exact innerLoop_inv K data dist xi i rest _ _ hrest
                  (pqCap_pred _ K _ (pqPush_pred _ heap _ hheap hentry))
              · rw [if_neg h6]
                exact innerLoop_inv K data dist xi i rest heap _ hrest hheap

theorem outerLoop_inv (K : ℕ) (data : List Vec) (dist : Vec → Vec → Dy) (old : IMat)
    (xi : Vec) (i : ℤ)
    (hold : ∀ j : ℤ, ∀ e ∈ old.colZ j, e = -1 ∨ (0 ≤ e ∧ e < (data.length : ℤ))) :
    ∀ (nb : List ℤ) (heap : PQ) (pv : List ℤ),
      (∀ e ∈ nb, e = -1 ∨ (0 ≤ e ∧ e < (data.length : ℤ))) →
      (∀ p ∈ heap, EntryOK data dist xi i p) →
      ∀ p ∈ (outerLoop K data dist old xi i nb (heap, pv)).1, EntryOK data dist xi i p
  | [], heap, pv, _, hheap => hheap
  | j :: rest, heap, pv, hnb, hheap => by
    have hrest : ∀ e ∈ rest, e = -1 ∨ (0 ≤ e ∧ e < (data.length : ℤ)) :=
      fun e he => hnb e (List.mem_cons_of_mem j he)
    simp only [outerLoop]
    by_cases h1 : j = -1
    · rw [if_pos h1]
      exact hheap
    · rw [if_neg h1]
      by_cases h2 : j = i
      · rw [if_pos h2]
        exact outerLoop_inv K data dist old xi i hold rest heap pv hrest hheap
      · rw [if_neg h2]
        by_cases h3 : Dy.deq (dist xi (if 0 ≤ j then data.getD j.toNat [] else []))
          (Dy.ofInt 0)
        · rw [if_pos h3]
          exact outerLoop_inv K data dist old xi i hold rest heap pv hrest hheap
        · rw [if_neg h3]
          have hj0 : 0 ≤ j ∧ j < (data.length : ℤ) := by
            rcases hnb j (List.mem_cons_self j rest) with h | h
            · exact absurd h h1
            · exact h
          have hentry : EntryOK data dist xi i
              (dist xi (if 0 ≤ j then data.getD j.toNat [] else []), j) := by
            refine ⟨hj0.1, hj0.2, h2, ?_⟩
            rw [if_pos hj0.1] at h3
            exact h3
          have hheap1 : ∀ p ∈ pqCap K (pqPush heap
              (dist xi (if 0 ≤ j then data.getD j.toNat [] else []), j)),
              EntryOK data dist xi i p :=
            pqCap_pred _ K _ (pqPush_pred _ heap _ hheap hentry)
          have hs2 := innerLoop_inv K data dist xi i (old.colZ j)
            (pqCap K (pqPush heap (dist xi (if 0 ≤ j then data.getD j.toNat [] else []), j)))
            pv (hold j) hheap1
          exact outerLoop_inv K data dist old xi i hold rest _ _ hrest hs2

theorem refineCol_ok_entries (K : ℕ) (data : List Vec) (dist : Vec → Vec → Dy)
    (pools : List (List ℕ)) (old : IMat) (i : ℕ) (col : List ℤ)
    (h : refineCol K data dist pools old i = .ok col)
    (hold : ∀ j : ℤ, ∀ e ∈ old.colZ j, e = -1 ∨ (0 ≤ e ∧ e < (data.length : ℤ))) :
    col.length = K ∧ ∀ e ∈ col, e = -1 ∨
      (0 ≤ e ∧ e < (data.length : ℤ) ∧ e ≠ (i : ℤ)
        ∧ ¬ Dy.deq (dist (data.getD i []) (data.getD e.toNat [])) (Dy.ofInt 0)) := by
  unfold refineCol at h
  dsimp only at h
  have hs := outerLoop_inv K data dist old (data.getD i []) (i : ℤ) hold
    (old.colZ (i : ℤ)) [] ((pools.getD i []).map Int.ofNat) (hold _)
    (by intro p hp; cases hp)
  split_ifs at h with hempty
  cases h
  constructor
  · exact padNeg_length _ _ (List.length_take_le _ _)
  · intro e he
    rcases padNeg_mem _ _ e he with h' | h'
    · have h'' := List.mem_of_mem_take h'
      rcases List.mem_map.mp h'' with ⟨p, hp, rfl⟩
      have := hs p hp
      exact Or.inr ⟨this.1, this.2.1, this.2.2.1, this.2.2.2⟩
    · exact Or.inl h'

theorem refineIter_ok (K : ℕ) (data : List Vec) (dist : Vec → Vec → Dy)
    (pools : List (List ℕ)) (old : IMat) (m : IMat)
    (h : refineIter K data dist pools old = .ok m)
    (hold : ∀ j : ℤ, ∀ e ∈ old.colZ j, e = -1 ∨ (0 ≤ e ∧ e < (data.length : ℤ))) :
    m.nrows = K ∧ m.cols.length = data.length
    ∧ (∀ c ∈ m.cols, c.length = K)
    ∧ (∀ i, i < data.length → ∀ e ∈ m.cols.getD i [], e = -1 ∨
        (0 ≤ e ∧ e < (data.length : ℤ) ∧ e ≠ (i : ℤ)
          ∧ ¬ Dy.deq (dist (data.getD i []) (data.getD e.toNat [])) (Dy.ofInt 0))) := by
  unfold refineIter at h
  cases hm : tmapM (refineCol K data dist pools old) (List.range data.length) with
  | ok cs =>
    rw [hm, TRes.bind_ok] at h
    cases h
    have r := tmapM_ok _ _ _ hm
    have hlen : cs.length = data.length := by
      rw [r.1, List.length_range]
    refine ⟨rfl, hlen, ?_, ?_⟩
    · intro c hc
      rcases List.mem_iff_getElem.mp hc with ⟨p, hp, rfl⟩
      have hp2 : p < cs.length := hp
      have hp' : p < data.length := by omega
      have := r.2 [] p (by rw [List.length_range]; exact hp')
      rw [List.getD_eq_getElem?_getD (List.range data.length),
        List.getElem?_range hp'] at this
      have hcol := refineCol_ok_entries K data dist pools old p _ this hold
      rw [List.getD_eq_getElem?_getD, List.getElem?_eq_getElem hp] at hcol
      exact hcol.1
    · intro i hi e he
      have := r.2 [] i (by rw [List.length_range]; exact hi)
      rw [List.getD_eq_getElem?_getD (List.range data.length),
        List.getElem?_range hi] at this
      have hcol := refineCol_ok_entries K data dist pools old i _ this hold
      exact hcol.2 e he
  | fatal msg => rw [hm] at h; cases h
  | outOfRand => rw [hm] at h; cases h

/-- Convert the positionwise entry bound into the total column-access form. -/
theorem colZ_inv_of_getD (m : IMat) (N : ℕ) (hlen : m.cols.length = N)
    (h : ∀ i, i < N → ∀ e ∈ m.cols.getD i [], e = -1 ∨ (0 ≤ e ∧ e < (N : ℤ))) :
    ∀ j : ℤ, ∀ e ∈ m.colZ j, e = -1 ∨ (0 ≤ e ∧ e < (N : ℤ)) := by
  intro j e he
  unfold IMat.colZ at he
  split_ifs at he with hj
  · by_cases hjn : j.toNat < N
    · exact h j.toNat hjn e he
    · rw [List.getD_eq_getElem?_getD, List.getElem?_eq_none_iff.mpr (by omega)] at he
      cases he
  · cases he

/-- Shape and entry invariants after the `maxIter` refinement iterations:
either no iteration ran (and the matrix is unchanged), or the final matrix is
the output of the last `refineIter`. -/
theorem refineLoop_ok (K : ℕ) (data : List Vec) (dist : Vec → Vec → Dy)
    (pools : List (List ℕ)) :
    ∀ (T : ℕ) (m0 m : IMat),
      refineLoop K data dist pools T m0 = .ok m →
      m0.cols.length = data.length →
      (∀ i, i < data.length → ∀ e ∈ m0.cols.getD i [],
        e = -1 ∨ (0 ≤ e ∧ e < (data.length : ℤ))) →
      (T = 0 ∧ m = m0) ∨
      (1 ≤ T ∧ m.nrows = K ∧ m.cols.length = data.length
        ∧ (∀ c ∈ m.cols, c.length = K)
        ∧ (∀ i, i < data.length → ∀ e ∈ m.cols.getD i [], e = -1 ∨
            (0 ≤ e ∧ e < (data.length : ℤ) ∧ e ≠ (i : ℤ)
              ∧ ¬ Dy.deq (dist (data.getD i []) (data.getD e.toNat [])) (Dy.ofInt 0))))
  | 0, m0, m, h, _, _ => by
    cases h
    exact Or.inl ⟨rfl, rfl⟩
  | T + 1, m0, m, h, hlen0, hinv0 => by
    rw [refineLoop] at h
    cases h1 : refineIter K data dist pools m0 with
    | ok m1 =>
      rw [h1, TRes.bind_ok] at h
      have r1 := refineIter_ok K data dist pools m0 m1 h1
        (colZ_inv_of_getD m0 data.length hlen0 hinv0)
      have hinv1 : ∀ i, i < data.length → ∀ e ∈ m1.cols.getD i [],
          e = -1 ∨ (0 ≤ e ∧ e < (data.length : ℤ)) := by
        intro i hi e he
        rcases r1.2.2.2 i hi e he with h' | h'
        · exact Or.inl h'
        · exact Or.inr ⟨h'.1, h'.2.1⟩
      rcases refineLoop_ok K data dist pools T m1 m h r1.2.1 hinv1 with ⟨_, rfl⟩ | hr
      · exact Or.inr ⟨by omega, r1.1, r1.2.1, r1.2.2.1, r1.2.2.2⟩
      · exact Or.inr ⟨by omega, hr.2.1, hr.2.2.1, hr.2.2.2.1, hr.2.2.2.2⟩
    | fatal msg => rw [h1] at h; cases h
    | outOfRand => rw [h1] at h; cases h

/-- A normal `searchTrees` return decomposes into its three phases. -/
theorem searchTrees_ok_parts (threshold n_trees K maxRecursion maxIter : ℕ)
    (data : List Vec) (distMethod : String) (cosImpl : Vec → Vec → Dy)
    (rand : List (ℕ × ℕ)) (m : IMat)
    (h : searchTrees threshold n_trees K maxRecursion maxIter data distMethod cosImpl
      false rand = .ok m) :
    ∃ st knns, forestPhase threshold n_trees maxRecursion data false rand = .ok st
      ∧ topKPhase threshold data (distSel distMethod cosImpl) st.pools = .ok knns
      ∧ refineLoop K data (distSel distMethod cosImpl) st.pools maxIter knns = .ok m := by
  unfold searchTrees at h
  dsimp only at h
  cases hf : forestPhase threshold n_trees maxRecursion data false rand with
  | ok st =>
    rw [hf, TRes.bind_ok, if_neg (by simp : ¬ (false : Bool) = true)] at h
    cases ht : topKPhase threshold data (distSel distMethod cosImpl) st.pools with
    | ok knns =>
      rw [ht, TRes.bind_ok, if_neg (by simp : ¬ (false : Bool) = true)] at h
      exact ⟨st, knns, hf.symm.trans hf, ht, h⟩
    | fatal msg => rw [ht] at h; cases h
    | outOfRand => rw [ht] at h; cases h
  | fatal msg => rw [hf] at h; cases h
  | outOfRand => rw [hf] at h; cases h

theorem forestPhase_len (threshold n_trees maxRecursion : ℕ) (data : List Vec)
    (abort : Bool) (rand : List (ℕ × ℕ)) (st' : TState)
    (h : forestPhase threshold n_trees maxRecursion data abort rand = .ok st') :
    st'.pools.length = data.length := by
  unfold forestPhase at h
  exact (foldl_forestStep_ok_inv threshold maxRecursion data abort _ _ _ h).1.trans
    (initPools_length _)

theorem distSel_val_nonneg (distMethod : String) (cosImpl : Vec → Vec → Dy)
    (hcos : ∀ x y, 0 ≤ (cosImpl x y).val) (x y : Vec) :
    0 ≤ (distSel distMethod cosImpl x y).val := by
  unfold distSel
  split_ifs
  · exact relDist_val_nonneg x y
  · exact hcos x y
  · exact relDist_val_nonneg x y

/-! ### C1 (amended): output shape -/

/-- C1 amended: a matrix returned normally (no abort, no fatal stop) has
`N = data.n_cols` columns; it has `K` rows when at least one refinement
iteration runs, but `leaf_threshold` rows when `max_refine_iters = 0` (the
refinement loop of lines 182-240 is what reallocates the matrix with `K` rows;
with zero iterations the `threshold × N` matrix of line 160 is returned). -/
theorem C1_shape (threshold n_trees K maxRecursion maxIter : ℕ) (data : List Vec)
    (distMethod : String) (cosImpl : Vec → Vec → Dy) (rand : List (ℕ × ℕ)) (m : IMat)
    (h : searchTrees threshold n_trees K maxRecursion maxIter data distMethod cosImpl
      false rand = .ok m) :
    m.cols.length = data.length
    ∧ m.nrows = (if maxIter = 0 then threshold else K)
    ∧ (∀ c ∈ m.cols, c.length = m.nrows) := by
  obtain ⟨st, knns, hf, ht, hr⟩ := searchTrees_ok_parts _ _ _ _ _ _ _ _ _ _ h
  have hstlen := forestPhase_len _ _ _ _ _ _ _ hf
  have hbound := forestPhase_bound _ _ _ _ _ _ _ hf
  have hpool : ∀ i, i < data.length → ∀ x ∈ st.pools.getD i [], x < data.length := by
    intro i hi x hx
    exact hbound _ (getD_mem_of_lt st.pools i [] (by omega)) x hx
  have htk := topKPhase_ok _ _ _ _ _ ht hpool
  rcases refineLoop_ok K data _ st.pools maxIter knns m hr htk.2.1
      (fun i hi e he => htk.2.2.2 i hi e he) with ⟨hT, rfl⟩ | hR
  · rw [if_pos hT]
    refine ⟨htk.2.1, htk.1, ?_⟩
    intro c hc
    rw [htk.1]
    exact htk.2.2.1 c hc
  · rw [if_neg (by omega : ¬ maxIter = 0)]
    refine ⟨hR.2.2.1, hR.2.1, ?_⟩
    intro c hc
    rw [hR.2.1]
    exact hR.2.2.2.1 c hc

/-- Witness for `C1_shape`: one refinement iteration on `data3` yields a
2-row, 3-column matrix (`K = 2`, `N = 3`). -/
theorem C1_shape_witness :
    matB.cols.length = data3.length
    ∧ matB.nrows = (if (1 : ℕ) = 0 then 4 else 2)
    ∧ ([2, 1] : List ℤ).length = matB.nrows := by
  have h := C1_shape 4 1 2 4 1 data3 "Euclidean" oneDist [] matB (by decide)
  exact ⟨h.1, h.2.1, h.2.2 [2, 1] (by decide)⟩

/-! ### C2 (amended): entry range and self-exclusion -/

/-- C2 amended: every entry of a normally returned matrix lies in
`[0, N) ∪ {-1}`; and whenever at least one refinement iteration runs
(`max_refine_iters ≥ 1`), no entry of column `i` equals `i` itself (both
refinement loops skip the own index, lines 200 and 211).  With
`max_refine_iters = 0` the returned matrix is the raw top-K reduction, which
pushes the pool seed `i` itself (distance 0) and so does contain `i` in column
`i` (see the counterexample). -/
theorem C2_range_self (threshold n_trees K maxRecursion maxIter : ℕ) (data : List Vec)
    (distMethod : String) (cosImpl : Vec → Vec → Dy) (rand : List (ℕ × ℕ)) (m : IMat)
    (h : searchTrees threshold n_trees K maxRecursion maxIter data distMethod cosImpl
      false rand = .ok m) :
    (∀ i : ℕ, ∀ e ∈ m.cols.getD i [], e = -1 ∨ (0 ≤ e ∧ e < (data.length : ℤ)))
    ∧ (1 ≤ maxIter → ∀ i : ℕ, ∀ e ∈ m.cols.getD i [], e ≠ -1 → e ≠ (i : ℤ)) := by
  obtain ⟨st, knns, hf, ht, hr⟩ := searchTrees_ok_parts _ _ _ _ _ _ _ _ _ _ h
  have hstlen := forestPhase_len _ _ _ _ _ _ _ hf
  have hbound := forestPhase_bound _ _ _ _ _ _ _ hf
  have hpool : ∀ i, i < data.length → ∀ x ∈ st.pools.getD i [], x < data.length := by
    intro i hi x hx
    exact hbound _ (getD_mem_of_lt st.pools i [] (by omega)) x hx
  have htk := topKPhase_ok _ _ _ _ _ ht hpool
  rcases refineLoop_ok K data _ st.pools maxIter knns m hr htk.2.1
      (fun i hi e he => htk.2.2.2 i hi e he) with ⟨hT, rfl⟩ | hR
  · constructor
    · intro i e he
      by_cases hi : i < data.length
      · exact htk.2.2.2 i hi e he
      · rw [List.getD_eq_getElem?_getD,
          List.getElem?_eq_none_iff.mpr (by rw [htk.2.1]; omega)] at he
        cases he
    · intro hmax
      omega
  · constructor
    · intro i e he
      by_cases hi : i < data.length
      · rcases hR.2.2.2.2 i hi e he with h' | h'
        · exact Or.inl h'
        · exact Or.inr ⟨h'.1, h'.2.1⟩
      · rw [List.getD_eq_getElem?_getD,
          List.getElem?_eq_none_iff.mpr (by rw [hR.2.2.1]; omega)] at he
        cases he
    · intro _ i e he hne
      by_cases hi : i < data.length
      · rcases hR.2.2.2.2 i hi e he with h' | h'
        · exact absurd h' hne
        · exact h'.2.2.1
      · rw [List.getD_eq_getElem?_getD,
          List.getElem?_eq_none_iff.mpr (by rw [hR.2.2.1]; omega)] at he
        cases he

/-- Witness for `C2_range_self` on the one-iteration run `matB`: entry 2 of
column 0 is a valid index, and the entry 0 of column 1 differs from 1. -/
theorem C2_range_self_witness :
    ((2 : ℤ) = -1 ∨ (0 ≤ (2 : ℤ) ∧ (2 : ℤ) < (data3.length : ℤ)))
    ∧ ((0 : ℤ) ≠ -1 → (0 : ℤ) ≠ ((1 : ℕ) : ℤ)) := by
  have h := C2_range_self 4 1 2 4 1 data3 "Euclidean" oneDist [] matB (by decide)
  exact ⟨h.1 0 2 (by decide), fun hne => h.2 (by omega) 1 0 (by decide) hne⟩

/-! ### C6: zero-distance candidates are never retained -/

/-- C6: with at least one refinement iteration and a non-negative distance
oracle, every non-sentinel entry of the returned matrix is at strictly
positive distance from its column's point: a candidate at exactly distance 0
is skipped by the `d == 0` guards (lines 202 and 223) and can never be
drained into the final matrix. -/
theorem C6_no_zero_dist (threshold n_trees K maxRecursion maxIter : ℕ) (data : List Vec)
    (distMethod : String) (cosImpl : Vec → Vec → Dy) (rand : List (ℕ × ℕ)) (m : IMat)
    (hmax : 1 ≤ maxIter) (hcos : ∀ x y, 0 ≤ (cosImpl x y).val)
    (h : searchTrees threshold n_trees K maxRecursion maxIter data distMethod cosImpl
      false rand = .ok m) :
    ∀ i, i < data.length → ∀ e ∈ m.cols.getD i [], e ≠ -1 →
      0 < (distSel distMethod cosImpl (data.getD i []) (data.getD e.toNat [])).val := by
  obtain ⟨st, knns, hf, ht, hr⟩ := searchTrees_ok_parts _ _ _ _ _ _ _ _ _ _ h
  have hstlen := forestPhase_len _ _ _ _ _ _ _ hf
  have hbound := forestPhase_bound _ _ _ _ _ _ _ hf
  have hpool : ∀ i, i < data.length → ∀ x ∈ st.pools.getD i [], x < data.length := by
    intro i hi x hx
    exact hbound _ (getD_mem_of_lt st.pools i [] (by omega)) x hx
  have htk := topKPhase_ok _ _ _ _ _ ht hpool
  rcases refineLoop_ok K data _ st.pools maxIter knns m hr htk.2.1
      (fun i hi e he => htk.2.2.2 i hi e he) with ⟨hT, _⟩ | hR
  · omega
  · intro i hi e he hne
    rcases hR.2.2.2.2 i hi e he with h' | h'
    · exact absurd h' hne
    · have hne0 : (distSel distMethod cosImpl (data.getD i [])
          (data.getD e.toNat [])).val ≠ 0 := by
        intro h0
        apply h'.2.2.2
        rw [Dy.deq_iff_val, Dy.val_ofInt]
        exact_mod_cast h0
      exact lt_of_le_of_ne (distSel_val_nonneg _ _ hcos _ _) (Ne.symm hne0)

/-- Witness for `C6_no_zero_dist`: on the one-iteration run `matB`, entry 0 of
column 1 is at squared distance 1 from point 1, which is positive. -/
theorem C6_no_zero_dist_witness :
    0 < (distSel "Euclidean" oneDist (data3.getD 1 [])
      (data3.getD (Int.toNat 0) [])).val := by
  have h := C6_no_zero_dist 4 1 2 4 1 data3 "Euclidean" oneDist [] matB
    (by omega) (fun x y => by show (0 : ℚ) ≤ (Dy.ofInt 1).val; rw [Dy.val_ofInt]; norm_num)
    (by decide)
  exact h 1 (by decide) 0 (by decide) (by decide)

end LV
